import Mathlib

/-!
Verification development for the API reverse-engineering core of this
repository.  The definitions below are shallow embeddings of
`src/api_reverse_engineer/traffic_parser.py` and
`src/autonomous_projects/api_reverse_engineer/src/analyzer.py`.

Modelling conventions:
* Python JSON values are the inductive `Json`; Python floats are modelled
  as opaque surrogates `Json.f id` (no claim depends on float arithmetic,
  only on the `float` type tag and on value identity).
* Python dicts are association lists in insertion order (Python 3.7+
  dicts preserve insertion order); Python sets are deduplicated lists in
  insertion order (Python set iteration order is unspecified, so any
  theorem that would depend on it is avoided or noted).
* Python strings are Lean `String`s, manipulated through their `.data`
  character lists; only ASCII behaviour is modelled.
-/

/-- A Python/JSON value as handled by `traffic_parser.py` and
`analyzer.py`.  `f id` is an opaque surrogate for a Python `float`. -/
inductive Json where
  | null
  | b (v : Bool)
  | i (v : Int)
  | f (id : Nat)
  | s (v : String)
  | arr (items : List Json)
  | obj (fields : List (String × Json))

/-- Size-based induction principle for the nested inductive `Json`. -/
theorem Json.inductionOn {P : Json → Prop}
    (hnull : P .null)
    (hb : ∀ v, P (.b v))
    (hi : ∀ v, P (.i v))
    (hf : ∀ id, P (.f id))
    (hs : ∀ v, P (.s v))
    (harr : ∀ l, (∀ x ∈ l, P x) → P (.arr l))
    (hobj : ∀ l, (∀ kv ∈ l, P kv.2) → P (.obj l)) :
    ∀ j, P j := by
  have key : ∀ n (j : Json), sizeOf j = n → P j := by
    intro n
    induction n using Nat.strong_induction_on with
    | _ n ih =>
      intro j hj
      match j with
      | .null => exact hnull
      | .b v => exact hb v
      | .i v => exact hi v
      | .f id => exact hf id
      | .s v => exact hs v
      | .arr l =>
        apply harr
        intro x hx
        refine ih (sizeOf x) ?_ x rfl
        have := List.sizeOf_lt_of_mem hx
        subst hj
        simp
        omega
      | .obj l =>
        apply hobj
        intro kv hkv
        have h1 : sizeOf kv < sizeOf l := List.sizeOf_lt_of_mem hkv
        have h2 : sizeOf kv.2 < sizeOf kv := by
          obtain ⟨k, v⟩ := kv
          simp only [Prod.mk.sizeOf_spec]
          omega
        refine ih (sizeOf kv.2) ?_ kv.2 rfl
        subst hj
        simp
        omega
  exact fun j => key (sizeOf j) j rfl

/-- The schema dictionaries produced by `TrafficParser._extract_schema`
and `TrafficParser._merge_schemas`.  Each field models the presence (and
value) of the corresponding dict key: `ty` is the `'type'` key (always
present on every schema those functions produce), `exmpl`, `format`
and `nullable` model the optional `'example'`, `'format'` and
`'nullable'` metadata keys (`nullable` is only ever set to `True` by the
source, so presence alone is tracked), `properties` and `required`
model the object keys and `items` the array key. -/
inductive Schema where
  | mk (ty : String) (exmpl : Option Json) (format : Option String)
      (nullable : Bool) (properties : Option (List (String × Schema)))
      (required : Option (List String)) (items : Option Schema)

def Schema.ty : Schema → String
  | .mk t _ _ _ _ _ _ => t

def Schema.exmpl : Schema → Option Json
  | .mk _ e _ _ _ _ _ => e

def Schema.format : Schema → Option String
  | .mk _ _ f _ _ _ _ => f

def Schema.nullable : Schema → Bool
  | .mk _ _ _ n _ _ _ => n

def Schema.properties : Schema → Option (List (String × Schema))
  | .mk _ _ _ _ p _ _ => p

def Schema.required : Schema → Option (List String)
  | .mk _ _ _ _ _ r _ => r

def Schema.items : Schema → Option Schema
  | .mk _ _ _ _ _ _ i => i

/-- The schema dict `{'type': 'any'}`. -/
def Schema.anyS : Schema := .mk "any" none none false none none none

/-- Python `schema['nullable'] = True` on a schema dict. -/
def Schema.setNullable : Schema → Schema
  | .mk t e f _ p r i => .mk t e f true p r i

/-- First value bound to key `k` in an association list (Python dict
lookup). -/
def alistFind (l : List (String × α)) (k : String) : Option α :=
  (l.find? (fun kv => kv.1 = k)).map (·.2)

theorem sizeOf_snd_lt [SizeOf α] [SizeOf β] (kv : α × β) :
    sizeOf kv.2 < sizeOf kv := by
  obtain ⟨a, b⟩ := kv
  simp only [Prod.mk.sizeOf_spec]
  omega

theorem sizeOf_getD_le (o : Option (List (String × Schema))) :
    sizeOf (o.getD []) ≤ sizeOf o := by
  cases o <;> simp
  all_goals omega

theorem sizeOf_lt_of_alistFind {l : List (String × Schema)} {k : String}
    {a : Schema} (h : alistFind l k = some a) : sizeOf a < sizeOf l := by
  unfold alistFind at h
  match hf : l.find? (fun kv => kv.1 = k) with
  | none => rw [hf] at h; simp at h
  | some kv =>
    rw [hf] at h
    simp at h
    have hmem : kv ∈ l := List.mem_of_find?_eq_some hf
    have h1 : sizeOf kv < sizeOf l := List.sizeOf_lt_of_mem hmem
    obtain ⟨k0, v0⟩ := kv
    simp at h
    subst h
    simp at h1
    omega

/- Shallow embedding of `TrafficParser._merge_schemas`
(`src/api_reverse_engineer/traffic_parser.py`, lines 231-264).

Faithfulness notes:
* the Python iterates `all_props = set(keys1) | set(keys2)` in
  unspecified set order; here the union is taken in the deterministic
  order "keys of `schema1`, then keys of `schema2` not in `schema1`"
  (Python dict equality is order-insensitive, so this pins down only
  what Python leaves open); `mergePropsLeft` is the part of that loop
  handling the keys of `schema1`;
* `list(req1 & req2)` is likewise modelled as `req1` filtered by
  membership in `req2`;
* the Python mutates the carried-over one-sided property sub-dicts in
  place when setting `nullable`; the embedding is pure, which changes no
  value computed by the function itself. -/
mutual

/-- Embedding of `_merge_schemas`; see the block comment above. -/
def mergeSchemas : Schema → Schema → Schema
  | .mk t1 _ _ _ p1 r1 i1, .mk t2 _ _ _ p2 r2 i2 =>
    if t1 ≠ t2 then Schema.anyS
    else if t1 = "object" then
      let ps1 := p1.getD []
      let ps2 := p2.getD []
      .mk t1 none none false
        (some (mergePropsLeft ps2 ps1 ++
          (ps2.filter (fun kv => (alistFind ps1 kv.1).isNone)).map
            (fun kv => (kv.1, kv.2.setNullable))))
        (some ((r1.getD []).filter (fun k => (r2.getD []).contains k))) none
    else if t1 = "array" then
      match i1, i2 with
      | some a, some b => .mk t1 none none false none none
          (some (mergeSchemas a b))
      | _, _ => .mk t1 none none false none none
          (some (i1.getD Schema.anyS))
    else
      .mk t1 none none false none none none
termination_by s1 _ => sizeOf s1
decreasing_by
  all_goals try have h1 := sizeOf_getD_le p1
  all_goals try have h2 := sizeOf_take_le rest 9
  all_goals try have h3 := sizeOf_snd_lt kv
  all_goals simp
  all_goals omega

/-- The `for prop in all_props` loop of `_merge_schemas` restricted to
the keys of `schema1`: a key also in `schema2` merges recursively, a key
only in `schema1` is carried over and marked nullable. -/
def mergePropsLeft (ps2 : List (String × Schema)) :
    List (String × Schema) → List (String × Schema)
  | [] => []
  | (k, a) :: rest =>
    (match alistFind ps2 k with
     | some b => (k, mergeSchemas a b)
     | none => (k, a.setNullable)) :: mergePropsLeft ps2 rest
termination_by l => sizeOf l
decreasing_by
  all_goals try have h1 := sizeOf_getD_le p1
  all_goals try have h2 := sizeOf_take_le rest 9
  all_goals try have h3 := sizeOf_snd_lt kv
  all_goals simp
  all_goals omega

end

/-- Python `value is None` test on a modelled JSON value. -/
def Json.isNull : Json → Bool
  | .null => true
  | _ => false

/-- ASCII regex class `\w`, i.e. `[A-Za-z0-9_]`. -/
def isWordChar (c : Char) : Bool :=
  c.isAlpha || c.isDigit || c = '_'

/-- Regex class `[\w\.-]` from the email format pattern. -/
def isWordDotDash (c : Char) : Bool :=
  isWordChar c || c = '.' || c = '-'

/-- Split a character list at every occurrence of `sep`. -/
def splitOnChar (sep : Char) : List Char → List (List Char)
  | [] => [[]]
  | c :: rest =>
    let r := splitOnChar sep rest
    if c = sep then [] :: r
    else match r with
      | [] => [[c]]
      | h :: t => (c :: h) :: t

/-- Prefix match of `re.match(r'^\d{4}-\d{2}-\d{2}T\d{2}:\d{2}:\d{2}', data)`
from `TrafficParser._extract_schema`. -/
def isDateTimePfx (l : List Char) : Bool :=
  match l.take 19 with
  | [y1, y2, y3, y4, h1, m1, m2, h2, d1, d2, t, hh1, hh2, c1, mm1, mm2, c2, s1, s2] =>
    y1.isDigit && y2.isDigit && y3.isDigit && y4.isDigit && h1 = '-' &&
    m1.isDigit && m2.isDigit && h2 = '-' && d1.isDigit && d2.isDigit &&
    t = 'T' && hh1.isDigit && hh2.isDigit && c1 = ':' && mm1.isDigit &&
    mm2.isDigit && c2 = ':' && s1.isDigit && s2.isDigit
  | _ => false

/-- Full match of `re.match(r'^[\w\.-]+@[\w\.-]+\.\w+$', data)` from
`TrafficParser._extract_schema`.  The classes exclude `@`, so the string
must contain exactly one `@`; the tail part matches iff the suffix after
its last dot is a nonempty `\w+` run with a nonempty head before it. -/
def isEmailStr (l : List Char) : Bool :=
  match splitOnChar '@' l with
  | [a, rest] =>
    a ≠ [] && a.all isWordDotDash && rest.all isWordDotDash &&
    (let rev := rest.reverse
     let tld := rev.takeWhile (· ≠ '.')
     rev.contains '.' && tld ≠ [] && tld.all isWordChar &&
     rev.drop (tld.length + 1) ≠ [])
  | _ => false

/-- Prefix match of `re.match(r'^https?://', data)`. -/
def isUriPfx (l : List Char) : Bool :=
  ("http://".data.isPrefixOf l) || ("https://".data.isPrefixOf l)

/-- The `'format'` metadata assigned to string schemas by
`TrafficParser._extract_schema` (lines 196-203). -/
def strFormat (v : String) : Option String :=
  if isDateTimePfx v.data then some "date-time"
  else if isEmailStr v.data then some "email"
  else if isUriPfx v.data then some "uri"
  else none

/-- Python `data[:100] if len(data) > 100 else data`. -/
def strTrunc (v : String) : String :=
  if v.length > 100 then ⟨v.data.take 100⟩ else v

/-- List `sizeOf` does not grow under `take`. -/
theorem sizeOf_take_le [SizeOf α] (l : List α) (n : Nat) :
    sizeOf (l.take n) ≤ sizeOf l := by
  induction l generalizing n with
  | nil => simp [List.take]
  | cons x xs ih =>
    cases n with
    | zero => simp [List.take]; omega
    | succ n =>
      simp only [List.take, List.cons.sizeOf_spec]
      have := ih n
      omega

/- Shallow embedding of `TrafficParser._extract_schema`
(`src/api_reverse_engineer/traffic_parser.py`, lines 183-229);
`extractItems` is the `item_schemas` comprehension over `data[:10]` and
`extractProps` the property loop of the dict case. -/
mutual

def extractSchema : Json → Nat → Schema
  | j, depth =>
    if depth > 10 then Schema.anyS
    else match j with
    | .null => .mk "null" none none true none none none
    | .b v => .mk "boolean" (some (.b v)) none false none none none
    | .i v => .mk "integer" (some (.i v)) none false none none none
    | .f id => .mk "number" (some (.f id)) none false none none none
    | .s v => .mk "string" (some (.s (strTrunc v))) (strFormat v) false none none none
    | .arr l =>
      match l with
      | [] => .mk "array" none none false none none (some Schema.anyS)
      | x :: rest =>
        .mk "array" none none false none none
          (some ((extractItems (rest.take 9) (depth + 1)).foldl mergeSchemas
            (extractSchema x (depth + 1))))
    | .obj fields =>
      .mk "object" none none false
        (some (extractProps fields (depth + 1)))
        (some ((fields.filter (fun kv => !kv.2.isNull)).map (·.1)))
        none
termination_by j _ => sizeOf j
decreasing_by
  all_goals try have h1 := sizeOf_getD_le p1
  all_goals try have h2 := sizeOf_take_le rest 9
  all_goals try have h3 := sizeOf_snd_lt kv
  all_goals simp
  all_goals omega

def extractItems : List Json → Nat → List Schema
  | [], _ => []
  | x :: rest, d => extractSchema x d :: extractItems rest d
termination_by l _ => sizeOf l
decreasing_by
  all_goals try have h1 := sizeOf_getD_le p1
  all_goals try have h2 := sizeOf_take_le rest 9
  all_goals try have h3 := sizeOf_snd_lt kv
  all_goals simp
  all_goals omega

def extractProps : List (String × Json) → Nat → List (String × Schema)
  | [], _ => []
  | kv :: rest, d => (kv.1, extractSchema kv.2 d) :: extractProps rest d
termination_by l _ => sizeOf l
decreasing_by
  all_goals try have h1 := sizeOf_getD_le p1
  all_goals try have h2 := sizeOf_take_le rest 9
  all_goals try have h3 := sizeOf_snd_lt kv
  all_goals simp
  all_goals omega

end


/-- Python whitespace stripped by `int()` / `float()` conversion
(`str.strip()` default class, ASCII part). -/
def isPyWs (c : Char) : Bool :=
  c = ' ' || c = '\t' || c = '\n' || c = '\r' ||
  c = Char.ofNat 11 || c = Char.ofNat 12

/-- Strip leading and trailing Python whitespace. -/
def stripWs (l : List Char) : List Char :=
  ((l.dropWhile isPyWs).reverse.dropWhile isPyWs).reverse

/-- Drop one optional leading `+` or `-` sign. -/
def dropSign (l : List Char) : List Char :=
  match l with
  | c :: rest => if c = '+' || c = '-' then rest else l
  | [] => l

/-- A CPython `digitpart`: one or more ASCII digits with single
underscores allowed strictly between digits. -/
def digitsU : List Char → Bool
  | [] => false
  | c :: rest => c.isDigit && digitsUAfter rest
where
  digitsUAfter : List Char → Bool
  | [] => true
  | c :: rest =>
    if c = '_' then
      match rest with
      | [] => false
      | d :: rest2 => d.isDigit && digitsUAfter rest2
    else c.isDigit && digitsUAfter rest

/-- Acceptance of a string by Python `int(value)` (ASCII model):
optional surrounding whitespace, optional sign, then a `digitpart`. -/
def parsesAsInt (s : String) : Bool :=
  digitsU (dropSign (stripWs s.data))

/-- Mantissa of a Python float literal: `digitpart`, or
`digitpart '.' [digitpart]`, or `'.' digitpart`. -/
def floatMantissa (l : List Char) : Bool :=
  match splitOnChar '.' l with
  | [m] => digitsU m
  | [ip, fp] =>
    (ip = [] || digitsU ip) && (fp = [] || digitsU fp) &&
    !(ip = [] && fp = [])
  | _ => false

/-- Acceptance of the part after sign stripping by Python `float(value)`:
`inf`, `infinity` or `nan` (case-insensitive), or a mantissa with an
optional exponent `e|E [sign] digitpart`. -/
def floatBody (l : List Char) : Bool :=
  let low := l.map Char.toLower
  if low = "inf".data || low = "infinity".data || low = "nan".data then true
  else
    match splitOnChar 'e' (l.map (fun c => if c = 'E' then 'e' else c)) with
    | [m] => floatMantissa (l.take m.length)
    | [m, ex] => floatMantissa (l.take m.length) &&
        digitsU (dropSign (l.drop (m.length + 1)))
    | _ => false

/-- Acceptance of a string by Python `float(value)` (ASCII model). -/
def parsesAsFloat (s : String) : Bool :=
  floatBody (dropSign (stripWs s.data))

/-- Shallow embedding of `TrafficParser._infer_type`
(`src/api_reverse_engineer/traffic_parser.py`, lines 155-181) on the
string case; the Python tries `value.lower() in ['true','false']`, then
`int(value)`, then `float(value)`. -/
def inferTypeStr (v : String) : String :=
  if v.data.map Char.toLower = "true".data ||
     v.data.map Char.toLower = "false".data then "boolean"
  else if parsesAsInt v then "integer"
  else if parsesAsFloat v then "number"
  else "string"

/-- Shallow embedding of `TrafficParser._infer_type` on all value
shapes (lines 155-181). -/
def inferTypeTP : Json → String
  | .null => "null"
  | .b _ => "boolean"
  | .i _ => "integer"
  | .f _ => "number"
  | .s v => inferTypeStr v
  | .arr _ => "array"
  | .obj _ => "object"

/-- The character `\x7b` (opening curly brace). -/
def lbrace : Char := Char.ofNat 123

/-- The character `\x7d` (closing curly brace). -/
def rbrace : Char := Char.ofNat 125

/-- Python f-string `f'\x7b\x7b\x7b{param_name}\x7d\x7d\x7d'` result: the
name wrapped in one pair of literal braces. -/
def braceWrap (name : String) : String := ⟨lbrace :: (name.data ++ [rbrace])⟩

/-- Python `str.startswith` on the one-character brace string. -/
def startsWithBrace (s : String) : Bool :=
  match s.data with
  | [] => false
  | c :: _ => c = lbrace

/-- Python `path.split('/')`. -/
def splitSlash (s : String) : List String :=
  (splitOnChar '/' s.data).map (fun l => ⟨l⟩)

/-- Python `'/'.join(pattern_segments)`. -/
def joinSlash : List String → String
  | [] => ""
  | [x] => x
  | x :: rest => x ++ "/" ++ joinSlash rest

/-- Python `str.isdigit` (ASCII model): nonempty and all digits. -/
def pyIsDigit (s : String) : Bool :=
  s.data ≠ [] && s.data.all Char.isDigit

/-- Lower-case hex digit class `[0-9a-f]`. -/
def isHexLower (c : Char) : Bool :=
  c.isDigit || ('a' ≤ c && c ≤ 'f')

/-- Full match of `r'^[0-9a-f]{8}-[0-9a-f]{4}-[0-9a-f]{4}-[0-9a-f]{4}-[0-9a-f]{12}$'`:
five hyphen-separated lower-hex groups of lengths 8-4-4-4-12. -/
def isUuidLower (l : List Char) : Bool :=
  match splitOnChar '-' l with
  | [a, b, c, d, e] =>
    a.length = 8 && b.length = 4 && c.length = 4 && d.length = 4 &&
    e.length = 12 && (a ++ b ++ c ++ d ++ e).all isHexLower
  | _ => false

/-- Full match of `r'^[0-9a-f]{24}$'` (applied without lower-casing). -/
def isHex24 (s : String) : Bool :=
  s.data.length = 24 && s.data.all isHexLower

/-- Python `segments.index(segment)`: index of the first occurrence
(the source never calls it on a missing element; on a missing element
this model returns the length where Python would raise). -/
def listIndex (segs : List String) (seg : String) : Nat :=
  match segs with
  | [] => 0
  | x :: rest => if x = seg then 0 else 1 + listIndex rest seg

/-- Shallow embedding of `TrafficParser._generate_param_name`
(`src/api_reverse_engineer/traffic_parser.py`, lines 144-153).  Out of
range indexing (never reached from the source call site) is modelled by
`getD` with default `""`. -/
def generateParamName (segs : List String) (index : Nat) : String :=
  let prev := segs.getD (index - 1) ""
  let next := segs.getD (index + 1) ""
  if index > 0 && (prev ≠ "" && !startsWithBrace prev) then prev ++ "Id"
  else if index < segs.length - 1 && (next ≠ "" && !startsWithBrace next) then
    next ++ "Id"
  else "id"

/-- Classification of one path segment by the loop body of
`TrafficParser._extract_path_pattern` (lines 118-140); `segs` is the
full segment list, needed for `segments.index(segment)` and for the
neighbour lookups of `_generate_param_name`. -/
def extractSegment (segs : List String) (seg : String) : String :=
  if seg = "" then seg
  else if pyIsDigit seg then braceWrap "id"
  else if isUuidLower (seg.data.map Char.toLower) then braceWrap "uuid"
  else if isHex24 seg then braceWrap "objectId"
  else if seg.data.any Char.isDigit && seg.data.length > 5 then
    braceWrap (generateParamName segs (listIndex segs seg))
  else seg

/-- The parameter name recorded in `path_params` for one segment (the
`param_name` variable of the same loop), `none` when the segment stays
literal. -/
def segParamName (segs : List String) (seg : String) : Option String :=
  if seg = "" then none
  else if pyIsDigit seg then some "id"
  else if isUuidLower (seg.data.map Char.toLower) then some "uuid"
  else if isHex24 seg then some "objectId"
  else if seg.data.any Char.isDigit && seg.data.length > 5 then
    some (generateParamName segs (listIndex segs seg))
  else none

/-- Python `set.add` modelled as ordered dedup append. -/
def dedupAdd (acc : List String) (n : String) : List String :=
  if acc.contains n then acc else acc ++ [n]

/-- Pattern segments produced by `TrafficParser._extract_path_pattern`
for a segment list. -/
def extractPathSegments (segs : List String) : List String :=
  segs.map (extractSegment segs)

/-- Shallow embedding of `TrafficParser._extract_path_pattern`
(lines 111-142): returns the joined pattern and the collected
`path_params` (a Python set, modelled in insertion order). -/
def extractPathPattern (path : String) : String × List String :=
  let segs := splitSlash path
  (joinSlash (extractPathSegments segs),
   segs.foldl (fun acc seg =>
     match segParamName segs seg with
     | some n => dedupAdd acc n
     | none => acc) [])

/-- Shallow embedding of `TrafficParser._merge_schema` (lines 266-272):
the in-place accumulation target is modelled as `Option Schema`, `none`
standing for the initial empty dict. -/
def mergeInto (target : Option Schema) (source : Schema) : Option Schema :=
  match target with
  | none => some source
  | some t => some (mergeSchemas t source)

/-- Progressive schema unification over a sample list as performed by
`TrafficParser._process_entry` / `_process_raw_request_response`: each
sample's schema (extracted at depth 0) is merged into the running
accumulator via `_merge_schema`. -/
def unifySamples (samples : List Json) : Option Schema :=
  samples.foldl (fun acc j => mergeInto acc (extractSchema j 0)) none

/-- HTTP methods of `types.HTTPMethod`
(`src/autonomous_projects/api_reverse_engineer/src/types.py`). -/
inductive HTTPMethod where
  | GET | POST | PUT | DELETE | PATCH | HEAD | OPTIONS
deriving DecidableEq

/-- The `.value` string of an `HTTPMethod` member. -/
def HTTPMethod.value : HTTPMethod → String
  | .GET => "GET"
  | .POST => "POST"
  | .PUT => "PUT"
  | .DELETE => "DELETE"
  | .PATCH => "PATCH"
  | .HEAD => "HEAD"
  | .OPTIONS => "OPTIONS"

/-- The enum constructor `HTTPMethod(method_str)`; `none` models the
`ValueError` raised on an unsupported value. -/
def HTTPMethod.ofString : String → Option HTTPMethod
  | "GET" => some .GET
  | "POST" => some .POST
  | "PUT" => some .PUT
  | "DELETE" => some .DELETE
  | "PATCH" => some .PATCH
  | "HEAD" => some .HEAD
  | "OPTIONS" => some .OPTIONS
  | _ => none

/-- Parameter type tags of `types.ParameterType`. -/
inductive ParameterType where
  | STRING | INTEGER | FLOAT | BOOLEAN | ARRAY | OBJECT | NULL
deriving DecidableEq

/-- Auth pattern tags of `types.AuthType`. -/
inductive AuthType where
  | NONE | API_KEY | BEARER_TOKEN | BASIC_AUTH | OAUTH | CUSTOM_HEADER
deriving DecidableEq

/-- `types.CapturedRequest`.  `body` is modelled at the JSON boundary:
`none` is a Python `None` or empty body string (both falsy, skipped by
`if call.request.body:`), `some none` a nonempty body string rejected by
`json.loads`, `some (some j)` a nonempty body string parsing to `j`.
The unused `timestamp` float field is omitted. -/
structure CapturedRequest where
  url : String
  method : String
  headers : List (String × String)
  query_params : List (String × Json)
  body : Option (Option Json)

/-- `types.CapturedResponse` (same body modelling; unused `timestamp`
omitted). -/
structure CapturedResponse where
  status_code : Int
  headers : List (String × String)
  body : Option (Option Json)
  content_type : Option String

/-- `types.APICall` (unused `duration_ms` omitted). -/
structure APICall where
  request : CapturedRequest
  response : CapturedResponse

/-- `types.Parameter` restricted to the fields the analyzer ever sets
(`name`, `type`, `required`, `description`, `example`); `example` is
spelled `exmpl` (Lean keyword). -/
structure Parameter where
  name : String
  type : ParameterType
  required : Bool
  description : Option String
  exmpl : Option Json

/-- The JSON-schema dictionaries produced by
`TypeInferencer.infer_schema` (`analyzer.py`, lines 42-67): a flat type
tag, `{'type':'array','items': s}`, `{'type':'object','properties': m}`,
or the bare `\x7b\x7d` dict used as `items` of an empty array. -/
inductive JSchema where
  | empty
  | jnull
  | jbool
  | jint
  | jnum
  | jstr
  | jarr (items : JSchema)
  | jobj (properties : List (String × JSchema))

/-- `types.ResponseSchema`. -/
structure ResponseSchema where
  status_code : Int
  content_type : String
  schema : JSchema
  examples : List Json

/-- `types.AuthPattern`; the source field `token_prefix` is spelled
`token_pfx` here. -/
structure AuthPattern where
  type : AuthType
  header_name : Option String
  parameter_name : Option String
  token_pfx : Option String
  examples : List String

/-- `types.RateLimit`. -/
structure RateLimit where
  requests_per_minute : Option Int
  requests_per_hour : Option Int
  requests_per_day : Option Int
  headers : List (String × String)

/-- `types.Endpoint` restricted to the fields `_analyze_endpoint`
sets. -/
structure Endpoint where
  path : String
  method : HTTPMethod
  summary : Option String
  parameters : List Parameter
  query_params : List Parameter
  headers : List Parameter
  request_body : Option JSchema
  responses : List ResponseSchema
  auth_required : Bool

/-- `types.APISpec` restricted to the fields `analyze_calls` sets
(`version`, `description`, `global_headers` keep their dataclass
defaults and are omitted). -/
structure APISpec where
  base_url : String
  title : String
  endpoints : List Endpoint
  auth_patterns : List AuthPattern
  rate_limits : Option RateLimit

/-- Shallow embedding of `TypeInferencer.infer_type` (`analyzer.py`,
lines 22-40). -/
def inferTypeAn : Json → ParameterType
  | .null => .NULL
  | .b _ => .BOOLEAN
  | .i _ => .INTEGER
  | .f _ => .FLOAT
  | .s _ => .STRING
  | .arr _ => .ARRAY
  | .obj _ => .OBJECT

/- Shallow embedding of `TypeInferencer.infer_schema` (`analyzer.py`,
lines 42-67); `inferProps` is the property loop of the dict case. -/
mutual

/-- Embedding of `infer_schema`; see the block comment above. -/
def inferSchema : Json → JSchema
  | .null => .jnull
  | .b _ => .jbool
  | .i _ => .jint
  | .f _ => .jnum
  | .s _ => .jstr
  | .arr [] => .jarr .empty
  | .arr (x :: _) => .jarr (inferSchema x)
  | .obj fields => .jobj (inferProps fields)
termination_by j => sizeOf j
decreasing_by
  all_goals try have h1 := sizeOf_getD_le p1
  all_goals try have h2 := sizeOf_take_le rest 9
  all_goals try have h3 := sizeOf_snd_lt kv
  all_goals simp
  all_goals omega

def inferProps : List (String × Json) → List (String × JSchema)
  | [] => []
  | kv :: rest => (kv.1, inferSchema kv.2) :: inferProps rest
termination_by l => sizeOf l
decreasing_by
  all_goals try have h1 := sizeOf_getD_le p1
  all_goals try have h2 := sizeOf_take_le rest 9
  all_goals try have h3 := sizeOf_snd_lt kv
  all_goals simp
  all_goals omega

end


/-- The replacement text `/\x7bid\x7d` used by all three substitutions
of `PatternDetector._normalize_path`. -/
def slashIdRepl : List Char := '/' :: lbrace :: 'i' :: 'd' :: [rbrace]

/-- Left-to-right scan of `re.sub(r'/\d+', '/\x7bid\x7d', path)`
(`analyzer.py`, line 93): at each `/` followed by at least one digit the
maximal digit run is replaced; scanning resumes after the match. -/
def subNumericIds : List Char → List Char
  | [] => []
  | c :: rest =>
    if c = '/' then
      let ds := rest.takeWhile Char.isDigit
      if ds ≠ [] then slashIdRepl ++ subNumericIds (rest.drop ds.length)
      else c :: subNumericIds rest
    else c :: subNumericIds rest
termination_by l => l.length
decreasing_by
  · have h1 : (rest.drop ds.length).length ≤ rest.length := by
      rw [List.length_drop]
      omega
    simp
    omega
  · simp
  · simp

/-- Left-to-right scan of the UUID substitution of
`PatternDetector._normalize_path` (lines 96-97): the pattern
`/[0-9a-f]\x7b8\x7d-…` with `re.IGNORECASE`, not anchored to a segment
end, replaces the 36 characters after a `/` when they are UUID
shaped. -/
def subUuidIds : List Char → List Char
  | [] => []
  | c :: rest =>
    if c = '/' && isUuidLower ((rest.take 36).map Char.toLower) then
      slashIdRepl ++ subUuidIds (rest.drop 36)
    else c :: subUuidIds rest
termination_by l => l.length
decreasing_by
  · have h1 : (rest.drop 36).length ≤ rest.length := by
      rw [List.length_drop]
      omega
    simp
    omega
  · simp

/-- Regex class `[a-zA-Z0-9_-]` of the long-token substitution. -/
def isTokenChar (c : Char) : Bool :=
  c.isAlpha || c.isDigit || c = '_' || c = '-'

/-- Left-to-right scan of `re.sub(r'/[a-zA-Z0-9_-]\x7b20,\x7d', '/\x7bid\x7d', path)`
(line 100): a `/` followed by a maximal class run of length at least 20
is replaced together with that run. -/
def subLongTokens : List Char → List Char
  | [] => []
  | c :: rest =>
    if c = '/' then
      let run := rest.takeWhile isTokenChar
      if run.length ≥ 20 then slashIdRepl ++ subLongTokens (rest.drop run.length)
      else c :: subLongTokens rest
    else c :: subLongTokens rest
termination_by l => l.length
decreasing_by
  · have h1 : (rest.drop run.length).length ≤ rest.length := by
      rw [List.length_drop]
      omega
    simp
    omega
  · simp
  · simp

/-- Shallow embedding of `PatternDetector._normalize_path`
(`analyzer.py`, lines 90-102): the three substitutions in source
order. -/
def normalizePath (path : String) : String :=
  ⟨subLongTokens (subUuidIds (subNumericIds path.data))⟩

/-- Scheme name class accepted by `urllib.parse.urlparse`. -/
def isSchemeChar (c : Char) : Bool :=
  c.isAlpha || c.isDigit || c = '+' || c = '-' || c = '.'

/-- Simplified model of `urllib.parse.urlparse(url)` restricted to the
triple `(scheme, netloc, path)` the analyzer reads, covering the
`scheme://netloc/path?query#fragment` shapes that captured HTTP URLs
take: the scheme is the lowered prefix before the first `:` when that
prefix is a valid scheme name, the netloc follows a leading `//` up to
`/`, `?` or `#`, and the path runs to `?` or `#`. -/
def urlparseParts (url : String) : String × String × String :=
  let l := url.data
  let pre := l.takeWhile (· ≠ ':')
  let hasScheme := pre.length < l.length && pre ≠ [] &&
    (pre.headD ' ').isAlpha && pre.all isSchemeChar
  let rest := if hasScheme then l.drop (pre.length + 1) else l
  let scheme := if hasScheme then ⟨pre.map Char.toLower⟩ else ""
  if rest.take 2 = ['/', '/'] then
    let after := rest.drop 2
    let netloc := after.takeWhile (fun c => c ≠ '/' && c ≠ '?' && c ≠ '#')
    let tail0 := after.drop netloc.length
    (scheme, ⟨netloc⟩, ⟨tail0.takeWhile (fun c => c ≠ '?' && c ≠ '#')⟩)
  else
    (scheme, "", ⟨rest.takeWhile (fun c => c ≠ '?' && c ≠ '#')⟩)

/-- Python `str.lower` (ASCII model). -/
def strLower (s : String) : String := ⟨s.data.map Char.toLower⟩

/-- Python `str.startswith`. -/
def strStartsWith (s pre : String) : Bool := pre.data.isPrefixOf s.data

/-- Contiguous sublist test (no `List.isInfixOf` in this toolchain). -/
def isInfixOfB (needle hay : List Char) : Bool :=
  match hay with
  | [] => needle.isEmpty
  | _ :: t => needle.isPrefixOf hay || isInfixOfB needle t

/-- Python `sub in s` substring containment. -/
def strContains (s sub : String) : Bool := isInfixOfB sub.data s.data

/-- `collections.defaultdict(list)` append: extend the list bound to
`k`, creating the entry at the end on first use. -/
def alistAppendK [DecidableEq κ] (l : List (κ × List α)) (k : κ) (v : α) :
    List (κ × List α) :=
  match l with
  | [] => [(k, [v])]
  | (k0, vs) :: rest =>
    if k0 = k then (k0, vs ++ [v]) :: rest
    else (k0, vs) :: alistAppendK rest k v

/-- Python dict assignment `d[k] = v`: update in place or append. -/
def alistSet [DecidableEq κ] (l : List (κ × α)) (k : κ) (v : α) :
    List (κ × α) :=
  match l with
  | [] => [(k, v)]
  | (k0, v0) :: rest =>
    if k0 = k then (k0, v) :: rest
    else (k0, v0) :: alistSet rest k v

/-- The endpoint key `f'\x7bmethod\x7d \x7bnormalized_path\x7d'` built by
`RequestAnalyzer._group_by_endpoint` (`analyzer.py`, lines 219-232) from
one call. -/
def mkEndpointKey (call : APICall) : String :=
  call.request.method ++ " " ++ normalizePath (urlparseParts call.request.url).2.2

/-- Shallow embedding of `RequestAnalyzer._group_by_endpoint`
(lines 219-234). -/
def groupByEndpoint (calls : List APICall) : List (String × List APICall) :=
  calls.foldl (fun gs c => alistAppendK gs (mkEndpointKey c) c) []

/-- Python `key.split(' ', 1)` on a key containing a space (every key
built by `_group_by_endpoint` contains one; on a space-free string the
source's two-element unpacking would raise and this model returns an
empty second component). -/
def splitFirstSpace (s : String) : String × String :=
  (⟨s.data.takeWhile (· ≠ ' ')⟩, ⟨(s.data.dropWhile (· ≠ ' ')).drop 1⟩)

/-- Per-parameter statistics dict of
`RequestAnalyzer._analyze_query_parameters` (lines 292-297). -/
structure QPStats where
  values : List Json
  types : List (ParameterType × Nat)
  required : Nat
  total : Nat

/-- `Counter` increment: bump the count of `t`, inserting it at the end
on first sight (Python `Counter` preserves insertion order). -/
def bumpCounter (ts : List (ParameterType × Nat)) (t : ParameterType) :
    List (ParameterType × Nat) :=
  match ts with
  | [] => [(t, 1)]
  | (t0, c) :: rest =>
    if t0 = t then (t0, c + 1) :: rest
    else (t0, c) :: bumpCounter rest t

/-- First loop of the per-call pass of `_analyze_query_parameters`
(lines 303-309): every already-tracked parameter gets `total += 1` and,
when present in this call, `required += 1`. -/
def qpLoop1 (stats : List (String × QPStats)) (callParams : List String) :
    List (String × QPStats) :=
  stats.map (fun ns =>
    (ns.1, { ns.2 with
      total := ns.2.total + 1,
      required := ns.2.required + (if callParams.contains ns.1 then 1 else 0) }))

/-- Second loop of the per-call pass (lines 311-317): every parameter of
this call records its value and inferred type and gets another
`total += 1` and `required += 1` (the `defaultdict` creates missing
entries at the end). -/
def qpLoop2 (stats : List (String × QPStats)) (qps : List (String × Json)) :
    List (String × QPStats) :=
  qps.foldl (fun st kv =>
    match alistFind st kv.1 with
    | some s0 =>
      alistSet st kv.1 { s0 with
        values := s0.values ++ [kv.2],
        types := bumpCounter s0.types (inferTypeAn kv.2),
        total := s0.total + 1,
        required := s0.required + 1 }
    | none =>
      st ++ [(kv.1, { values := [kv.2], types := [(inferTypeAn kv.2, 1)],
                      required := 1, total := 1 })]) stats

/-- One call of the accumulation pass of `_analyze_query_parameters`. -/
def qpProcessCall (stats : List (String × QPStats)) (call : APICall) :
    List (String × QPStats) :=
  qpLoop2 (qpLoop1 stats (call.request.query_params.map (·.1)))
    call.request.query_params

/-- `Counter.most_common(1)[0][0]`: the earliest-inserted entry with the
maximal count (`none` on the empty counter, where Python would raise;
the analyzer never queries an empty counter). -/
def mostCommon (ts : List (ParameterType × Nat)) : Option ParameterType :=
  (ts.foldl (fun acc tc =>
    match acc with
    | none => some tc
    | some bc => if tc.2 > bc.2 then some tc else some bc) none).map (·.1)

/-- Shallow embedding of `RequestAnalyzer._analyze_query_parameters`
(`analyzer.py`, lines 290-340).  The float test
`stats['required'] / len(calls) > 0.5` is modelled by the exact
comparison `2 * required > len(calls)` (`0.5` is a dyadic rational, so
the two agree for all realistic call counts). -/
def analyzeQueryParameters (calls : List APICall) : List Parameter :=
  let stats := calls.foldl qpProcessCall []
  stats.map (fun ns =>
    { name := ns.1,
      type := (mostCommon ns.2.types).getD .STRING,
      required := 2 * ns.2.required > calls.length,
      exmpl := ns.2.values.head?,
      description := some ("Query parameter: " ++ ns.1) })

/-- Scanner for `re.findall(r'\\\x7b(\w+)\\\x7d', path)` used by
`_analyze_path_parameters` (line 275): each non-overlapping
`\x7bname\x7d` occurrence with a nonempty `\w+` name, left to right. -/
def findBraceParams : List Char → List String
  | [] => []
  | c :: rest =>
    if c = lbrace then
      let name := rest.takeWhile isWordChar
      if name ≠ [] && (rest.drop name.length).headD ' ' = rbrace then
        (⟨name⟩ : String) :: findBraceParams (rest.drop (name.length + 1))
      else findBraceParams rest
    else findBraceParams rest
termination_by l => l.length
decreasing_by
  · have h1 : (rest.drop (name.length + 1)).length ≤ rest.length := by
      rw [List.length_drop]
      omega
    simp
    omega
  · simp
  · simp

/-- Shallow embedding of `RequestAnalyzer._analyze_path_parameters`
(lines 270-288). -/
def analyzePathParameters (path : String) : List Parameter :=
  (findBraceParams path.data).map (fun n =>
    { name := n, type := .STRING, required := true, exmpl := none,
      description := some ("Path parameter: " ++ n) })

/-- Shallow embedding of `RequestAnalyzer._analyze_headers`
(lines 342-367); the float test `count / len(calls) > 0.8` is modelled
by the exact comparison `5 * count > 4 * len(calls)`. -/
def analyzeHeaders (calls : List APICall) : List Parameter :=
  let stats := calls.foldl (fun hs call =>
    call.request.headers.foldl (fun hs kv =>
      if [("host" : String), "user-agent", "accept", "content-length"].contains
          (strLower kv.1) then hs
      else
        match alistFind hs kv.1 with
        | some cv => alistSet hs kv.1 (cv.1 + 1, dedupAdd cv.2 kv.2)
        | none => hs ++ [(kv.1, (1, [kv.2]))]) hs) []
  stats.filterMap (fun hv =>
    if 5 * hv.2.1 > 4 * calls.length then
      some { name := hv.1, type := .STRING, required := true, exmpl := none,
             description := some ("Required header: " ++ hv.1) }
    else none)

/-- Shallow embedding of `RequestAnalyzer._analyze_request_body`
(lines 369-387): the schema comes from the first JSON-parseable
nonempty body. -/
def analyzeRequestBody (calls : List APICall) : Option JSchema :=
  let bodies := calls.filterMap (fun c =>
    match c.request.body with
    | some (some j) => some j
    | _ => none)
  match bodies with
  | [] => none
  | j :: _ => some (inferSchema j)

/-- Python `call.response.content_type or 'unknown'`. -/
def ctOrUnknown : Option String → String
  | none => "unknown"
  | some s => if s = "" then "unknown" else s

/-- Response grouping by `(status code, content type)` of
`_analyze_responses` (lines 391-396). -/
def responseGroups (calls : List APICall) :
    List ((Int × String) × List CapturedResponse) :=
  calls.foldl (fun gs c =>
    alistAppendK gs (c.response.status_code, ctOrUnknown c.response.content_type)
      c.response) []

/-- Inner accumulation of `_analyze_responses` (lines 404-412): walk the
group's responses; every parseable body is appended to `examples` and the
schema is inferred from the first of them. -/
def respFoldStep (st : Option JSchema × List Json) (r : CapturedResponse) :
    Option JSchema × List Json :=
  match r.body with
  | some (some j) =>
    (match st.1 with
     | none => some (inferSchema j)
     | some s => some s, st.2 ++ [j])
  | _ => st

/-- Shallow embedding of `RequestAnalyzer._analyze_responses`
(lines 389-422); `schema or \x7b\x7d` maps `none` to the empty dict and
`examples[:3]` caps the retained examples. -/
def analyzeResponses (calls : List APICall) : List ResponseSchema :=
  (responseGroups calls).map (fun kv =>
    let st := kv.2.foldl respFoldStep (none, [])
    { status_code := kv.1.1,
      content_type := kv.1.2,
      schema := st.1.getD .empty,
      examples := st.2.take 3 })

/-- Shallow embedding of `RequestAnalyzer._detect_auth_requirement`
(lines 424-433). -/
def detectAuthRequirement (calls : List APICall) : Bool :=
  calls.any (fun c =>
    [("authorization" : String), "x-api-key", "apikey", "api-key"].any
      (fun ah => c.request.headers.any (fun kv => strLower kv.1 = ah)))

/-- Shallow embedding of `RequestAnalyzer._generate_summary`
(lines 435-451); the unused `calls` argument of the source is dropped. -/
def generateSummary (method : HTTPMethod) (path : String) : String :=
  let operation :=
    match method with
    | .GET => "Get"
    | .POST => "Create"
    | .PUT => "Update"
    | .DELETE => "Delete"
    | .PATCH => "Partially update"
    | m => m.value
  let parts := (splitSlash path).filter (fun p => p ≠ "" && p ≠ braceWrap "id")
  operation ++ " " ++ (parts.getLast?.getD "resource")

/-- Shallow embedding of `RequestAnalyzer._determine_base_url`
(lines 453-462). -/
def determineBaseUrl (calls : List APICall) : String :=
  match calls with
  | [] => "https://api.example.com"
  | c :: _ =>
    let parts := urlparseParts c.request.url
    parts.1 ++ "://" ++ parts.2.1

/-- Loop state of `PatternDetector.detect_auth_patterns`
(`analyzer.py`, lines 104-153): the patterns appended so far, the
`bearer_tokens` and `api_keys` sets, and the `auth_headers` dict of
sets (sets modelled as insertion-ordered deduplicated lists). -/
structure AuthScanState where
  patterns : List AuthPattern
  bearer : List String
  apiKeys : List String
  authHeaders : List (String × List String)

/-- `auth_headers[header].add(value)`. -/
def authHeadersAdd (l : List (String × List String)) (k v : String) :
    List (String × List String) :=
  match alistFind l k with
  | some vs => alistSet l k (dedupAdd vs v)
  | none => l ++ [(k, [v])]

/-- One header of one call in the scan loop of `detect_auth_patterns`
(lines 113-133). -/
def authScanHeader (st : AuthScanState) (header value : String) :
    AuthScanState :=
  let hl := strLower header
  if hl = "authorization" then
    if strStartsWith value "Bearer " then
      { st with bearer := dedupAdd st.bearer ⟨value.data.drop 7⟩ }
    else if strStartsWith value "Basic " then
      { st with patterns := st.patterns ++
          [{ type := .BASIC_AUTH, header_name := some "Authorization",
             parameter_name := none, token_pfx := some "Basic",
             examples := [] }] }
    else st
  else if [("x-api-key" : String), "apikey", "api-key"].contains hl then
    { st with apiKeys := dedupAdd st.apiKeys value,
              authHeaders := authHeadersAdd st.authHeaders header value }
  else if strContains hl "token" || strContains hl "auth" then
    { st with authHeaders := authHeadersAdd st.authHeaders header value }
  else st

/-- Shallow embedding of `PatternDetector.detect_auth_patterns`
(lines 104-153). -/
def detectAuthPatterns (calls : List APICall) : List AuthPattern :=
  let st := calls.foldl (fun st c =>
    c.request.headers.foldl (fun st kv => authScanHeader st kv.1 kv.2) st)
    { patterns := [], bearer := [], apiKeys := [], authHeaders := [] }
  let withBearer := st.patterns ++
    (if st.bearer ≠ [] then
      [{ type := .BEARER_TOKEN, header_name := some "Authorization",
         parameter_name := none, token_pfx := some "Bearer",
         examples := st.bearer.take 3 }]
     else [])
  withBearer ++
    (if st.apiKeys ≠ [] then
      st.authHeaders.filterMap (fun hv =>
        if hv.2.any (fun v => st.apiKeys.contains v) then
          some { type := .API_KEY, header_name := some hv.1,
                 parameter_name := none, token_pfx := none,
                 examples := hv.2.take 3 }
        else none)
     else [])

/-- Shallow embedding of `PatternDetector.detect_rate_limits`
(lines 155-173). -/
def detectRateLimits (calls : List APICall) : Option RateLimit :=
  let hs := calls.foldl (fun acc c =>
    c.response.headers.foldl (fun acc kv =>
      let hl := strLower kv.1
      if strContains hl "rate-limit" || strContains hl "ratelimit" then
        alistSet acc kv.1 kv.2
      else if hl = "x-ratelimit-remaining" || hl = "x-ratelimit-limit" then
        alistSet acc kv.1 kv.2
      else acc) acc) []
  match hs with
  | [] => none
  | _ => some { requests_per_minute := none, requests_per_hour := none,
                requests_per_day := none, headers := hs }

/-- Shallow embedding of `RequestAnalyzer._analyze_endpoint`
(`analyzer.py`, lines 236-268); the `HTTPMethod(method_str)` constructor
raising `ValueError` on an unsupported method string is modelled by
`Except.error`. -/
def analyzeEndpoint (key : String) (calls : List APICall) :
    Except String Endpoint :=
  let ms := splitFirstSpace key
  match HTTPMethod.ofString ms.1 with
  | none => .error (ms.1 ++ " is not a valid HTTPMethod")
  | some method => .ok
      { path := ms.2,
        method := method,
        summary := some (generateSummary method ms.2),
        parameters := analyzePathParameters ms.2,
        query_params := analyzeQueryParameters calls,
        headers := analyzeHeaders calls,
        request_body := analyzeRequestBody calls,
        responses := analyzeResponses calls,
        auth_required := detectAuthRequirement calls }

/-- Shallow embedding of `RequestAnalyzer.analyze_calls`
(`analyzer.py`, lines 184-217): the guard raising
`ValueError('No API calls to analyze')` on an empty input, then one
endpoint per group, then the global pattern detection and spec
assembly. -/
def analyzeCalls (calls : List APICall) : Except String APISpec :=
  match calls with
  | [] => .error "No API calls to analyze"
  | _ => do
    let endpoints ← (groupByEndpoint calls).mapM
      (fun kv => analyzeEndpoint kv.1 kv.2)
    .ok { base_url := determineBaseUrl calls,
          title := "Generated API",
          endpoints := endpoints,
          auth_patterns := detectAuthPatterns calls,
          rate_limits := detectRateLimits calls }

theorem attachMap_eq_map {α β : Type _} (l : List α) (g : α → β) :
    l.attach.map (fun x => g x.1) = l.map g := by
  simp [List.attach, List.attachWith, List.map_pmap]


theorem charToNat_ofNat {n : Nat} (h : n < 55296) : (Char.ofNat n).toNat = n := by
  have hv : n.isValidChar := Or.inl h
  simp [Char.ofNat, hv, Char.ofNatAux, Char.toNat, UInt32.toNat]

theorem charToNat_inj {c d : Char} (h : c.toNat = d.toNat) : c = d := by
  apply Char.ext
  exact UInt32.ext h

theorem char_ne_of_toNat_ne {c d : Char} (h : c.toNat ≠ d.toNat) : c ≠ d :=
  fun he => h (congrArg Char.toNat he)

theorem toLower_toNat (c : Char) : (Char.toLower c).toNat =
    if 65 ≤ c.toNat ∧ c.toNat ≤ 90 then c.toNat + 32 else c.toNat := by
  unfold Char.toLower
  dsimp only
  split
  · next h =>
    have h2 : c.toNat + 32 < 55296 := by
      have := h.2
      omega
    rw [charToNat_ofNat h2]
  · rfl

/-- If `toLower c` is a lower-case letter `t`, then `c` is `t` itself or
its upper-case counterpart. -/
theorem toLower_case2 {c t : Char} (h97 : 97 ≤ t.toNat) (h122 : t.toNat ≤ 122)
    (h : Char.toLower c = t) : c.toNat = t.toNat ∨ c.toNat = t.toNat - 32 := by
  have hv := congrArg Char.toNat h
  rw [toLower_toNat] at hv
  split at hv
  · right
    omega
  · left
    omega

theorem isDigit_toNat {c : Char} (h : c.isDigit = true) :
    48 ≤ c.toNat ∧ c.toNat ≤ 57 := by
  simp only [Char.isDigit, Bool.and_eq_true, decide_eq_true_eq] at h
  exact ⟨h.1, h.2⟩

theorem not_digit_of_ge65 {c : Char} (h : 65 ≤ c.toNat) : c.isDigit = false := by
  cases hd : c.isDigit
  · rfl
  · have := isDigit_toNat hd
    omega

theorem isPyWs_toNat {c : Char} (h : isPyWs c = true) : c.toNat ≤ 32 := by
  simp only [isPyWs, Bool.or_eq_true, decide_eq_true_eq] at h
  rcases h with ((((h | h) | h) | h) | h) | h <;> subst h <;> decide

theorem not_ws_of_ge65 {c : Char} (h : 65 ≤ c.toNat) : isPyWs c = false := by
  cases hw : isPyWs c
  · rfl
  · have := isPyWs_toNat hw
    omega

theorem exists_four_of_map {l : List Char} {a b c d : Char}
    (h : l.map Char.toLower = [a, b, c, d]) :
    ∃ c1 c2 c3 c4, l = [c1, c2, c3, c4] ∧ Char.toLower c1 = a ∧
      Char.toLower c2 = b ∧ Char.toLower c3 = c ∧ Char.toLower c4 = d := by
  match l with
  | [] => simp at h
  | [x1] => simp at h
  | [x1, x2] => simp at h
  | [x1, x2, x3] => simp at h
  | [x1, x2, x3, x4] =>
    simp only [List.map_cons, List.map_nil, List.cons.injEq, and_true] at h
    exact ⟨x1, x2, x3, x4, rfl, h.1, h.2.1, h.2.2.1, h.2.2.2⟩
  | x1 :: x2 :: x3 :: x4 :: x5 :: rest => simp at h

theorem exists_five_of_map {l : List Char} {a b c d e : Char}
    (h : l.map Char.toLower = [a, b, c, d, e]) :
    ∃ c1 c2 c3 c4 c5, l = [c1, c2, c3, c4, c5] ∧ Char.toLower c1 = a ∧
      Char.toLower c2 = b ∧ Char.toLower c3 = c ∧ Char.toLower c4 = d ∧
      Char.toLower c5 = e := by
  match l with
  | [] => simp at h
  | [x1] => simp at h
  | [x1, x2] => simp at h
  | [x1, x2, x3] => simp at h
  | [x1, x2, x3, x4] => simp at h
  | [x1, x2, x3, x4, x5] =>
    simp only [List.map_cons, List.map_nil, List.cons.injEq, and_true] at h
    exact ⟨x1, x2, x3, x4, x5, rfl, h.1, h.2.1, h.2.2.1, h.2.2.2.1, h.2.2.2.2⟩
  | x1 :: x2 :: x3 :: x4 :: x5 :: x6 :: rest => simp at h

theorem parsesAsInt_false_of_true_word {s : String}
    (h : s.data.map Char.toLower = "true".data) : parsesAsInt s = false := by
  obtain ⟨c1, c2, c3, c4, hl, h1, h2, h3, h4⟩ := exists_four_of_map h
  have t1 := toLower_case2 (t := 't') (by decide) (by decide) h1
  have t4 := toLower_case2 (t := 'e') (by decide) (by decide) h4
  have e1 : ('t' : Char).toNat = 116 := by decide
  have e4 : ('e' : Char).toNat = 101 := by decide
  have hws1 : isPyWs c1 = false := not_ws_of_ge65 (by omega)
  have hws4 : isPyWs c4 = false := not_ws_of_ge65 (by omega)
  have hd1 : c1.isDigit = false := not_digit_of_ge65 (by omega)
  have hp : c1 ≠ '+' := char_ne_of_toNat_ne (by
    have : ('+' : Char).toNat = 43 := by decide
    omega)
  have hm : c1 ≠ '-' := char_ne_of_toNat_ne (by
    have : ('-' : Char).toNat = 45 := by decide
    omega)
  simp [parsesAsInt, hl, stripWs, List.dropWhile, hws1, hws4, dropSign,
    hp, hm, digitsU, hd1]

theorem parsesAsInt_false_of_false_word {s : String}
    (h : s.data.map Char.toLower = "false".data) : parsesAsInt s = false := by
  obtain ⟨c1, c2, c3, c4, c5, hl, h1, h2, h3, h4, h5⟩ := exists_five_of_map h
  have t1 := toLower_case2 (t := 'f') (by decide) (by decide) h1
  have t5 := toLower_case2 (t := 'e') (by decide) (by decide) h5
  have e1 : ('f' : Char).toNat = 102 := by decide
  have e5 : ('e' : Char).toNat = 101 := by decide
  have hws1 : isPyWs c1 = false := not_ws_of_ge65 (by omega)
  have hws5 : isPyWs c5 = false := not_ws_of_ge65 (by omega)
  have hd1 : c1.isDigit = false := not_digit_of_ge65 (by omega)
  have hp : c1 ≠ '+' := char_ne_of_toNat_ne (by
    have : ('+' : Char).toNat = 43 := by decide
    omega)
  have hm : c1 ≠ '-' := char_ne_of_toNat_ne (by
    have : ('-' : Char).toNat = 45 := by decide
    omega)
  simp [parsesAsInt, hl, stripWs, List.dropWhile, hws1, hws5, dropSign,
    hp, hm, digitsU, hd1]

theorem parsesAsFloat_false_of_true_word {s : String}
    (h : s.data.map Char.toLower = "true".data) : parsesAsFloat s = false := by
  obtain ⟨c1, c2, c3, c4, hl, h1, h2, h3, h4⟩ := exists_four_of_map h
  have t1 := toLower_case2 (t := 't') (by decide) (by decide) h1
  have t2 := toLower_case2 (t := 'r') (by decide) (by decide) h2
  have t3 := toLower_case2 (t := 'u') (by decide) (by decide) h3
  have t4 := toLower_case2 (t := 'e') (by decide) (by decide) h4
  have e1 : ('t' : Char).toNat = 116 := by decide
  have e2 : ('r' : Char).toNat = 114 := by decide
  have e3 : ('u' : Char).toNat = 117 := by decide
  have e4 : ('e' : Char).toNat = 101 := by decide
  have eE : ('E' : Char).toNat = 69 := by decide
  have hws1 : isPyWs c1 = false := not_ws_of_ge65 (by omega)
  have hws4 : isPyWs c4 = false := not_ws_of_ge65 (by omega)
  have hp : c1 ≠ '+' := char_ne_of_toNat_ne (by
    have : ('+' : Char).toNat = 43 := by decide
    omega)
  have hm : c1 ≠ '-' := char_ne_of_toNat_ne (by
    have : ('-' : Char).toNat = 45 := by decide
    omega)
  have hE1 : c1 ≠ 'E' := char_ne_of_toNat_ne (by omega)
  have hE2 : c2 ≠ 'E' := char_ne_of_toNat_ne (by omega)
  have hE3 : c3 ≠ 'E' := char_ne_of_toNat_ne (by omega)
  have he1 : c1 ≠ 'e' := char_ne_of_toNat_ne (by omega)
  have he2 : c2 ≠ 'e' := char_ne_of_toNat_ne (by omega)
  have he3 : c3 ≠ 'e' := char_ne_of_toNat_ne (by omega)
  have h4e : (if c4 = 'E' then 'e' else c4) = 'e' := by
    rcases t4 with t4 | t4
    · have : c4 = 'e' := charToNat_inj (by omega)
      subst this
      decide
    · have : c4 = 'E' := charToNat_inj (by omega)
      subst this
      decide
  have hmap : s.data.map Char.toLower = "true".data := h
  simp only [parsesAsFloat, hl, stripWs, List.dropWhile, hws1, hws4, dropSign]
  simp only [floatBody, List.map_cons, List.map_nil]
  simp [splitOnChar, hp, hm, h1, h2, h3, h4, hE1, hE2, hE3, h4e, he1, he2,
    he3, digitsU, dropSign]

theorem parsesAsFloat_false_of_false_word {s : String}
    (h : s.data.map Char.toLower = "false".data) : parsesAsFloat s = false := by
  obtain ⟨c1, c2, c3, c4, c5, hl, h1, h2, h3, h4, h5⟩ := exists_five_of_map h
  have t1 := toLower_case2 (t := 'f') (by decide) (by decide) h1
  have t2 := toLower_case2 (t := 'a') (by decide) (by decide) h2
  have t3 := toLower_case2 (t := 'l') (by decide) (by decide) h3
  have t4 := toLower_case2 (t := 's') (by decide) (by decide) h4
  have t5 := toLower_case2 (t := 'e') (by decide) (by decide) h5
  have e1 : ('f' : Char).toNat = 102 := by decide
  have e2 : ('a' : Char).toNat = 97 := by decide
  have e3 : ('l' : Char).toNat = 108 := by decide
  have e4 : ('s' : Char).toNat = 115 := by decide
  have e5 : ('e' : Char).toNat = 101 := by decide
  have eE : ('E' : Char).toNat = 69 := by decide
  have hws1 : isPyWs c1 = false := not_ws_of_ge65 (by omega)
  have hws5 : isPyWs c5 = false := not_ws_of_ge65 (by omega)
  have hp : c1 ≠ '+' := char_ne_of_toNat_ne (by
    have : ('+' : Char).toNat = 43 := by decide
    omega)
  have hm : c1 ≠ '-' := char_ne_of_toNat_ne (by
    have : ('-' : Char).toNat = 45 := by decide
    omega)
  have hE1 : c1 ≠ 'E' := char_ne_of_toNat_ne (by omega)
  have hE2 : c2 ≠ 'E' := char_ne_of_toNat_ne (by omega)
  have hE3 : c3 ≠ 'E' := char_ne_of_toNat_ne (by omega)
  have hE4 : c4 ≠ 'E' := char_ne_of_toNat_ne (by omega)
  have he1 : c1 ≠ 'e' := char_ne_of_toNat_ne (by omega)
  have he2 : c2 ≠ 'e' := char_ne_of_toNat_ne (by omega)
  have he3 : c3 ≠ 'e' := char_ne_of_toNat_ne (by omega)
  have he4 : c4 ≠ 'e' := char_ne_of_toNat_ne (by omega)
  have h5e : (if c5 = 'E' then 'e' else c5) = 'e' := by
    rcases t5 with t5 | t5
    · have : c5 = 'e' := charToNat_inj (by omega)
      subst this
      decide
    · have : c5 = 'E' := charToNat_inj (by omega)
      subst this
      decide
  simp only [parsesAsFloat, hl, stripWs, List.dropWhile, hws1, hws5, dropSign]
  simp only [floatBody, List.map_cons, List.map_nil]
  simp [splitOnChar, hp, hm, h1, h2, h3, h4, h5, hE1, hE2, hE3, hE4, h5e,
    he1, he2, he3, he4, digitsU, dropSign]

/-- C10: type inference on string-valued inputs (query parameters and
headers, `TrafficParser._infer_type`) coerces value-shaped strings: a
string accepted by Python `int()` is typed `integer`; a remaining string
accepted by Python `float()` is typed `number`; the strings
`true`/`false` in any letter case are typed `boolean`; and only strings
accepted by none of these are typed `string`.  (The three classes are
mutually exclusive, so the source's boolean-first branch order agrees
with the claim's integer-first phrasing.) -/
theorem c10_infer_type_string_coercion (s : String) :
    (parsesAsInt s = true → inferTypeStr s = "integer") ∧
    (parsesAsInt s = false → parsesAsFloat s = true → inferTypeStr s = "number") ∧
    ((s.data.map Char.toLower = "true".data ∨
      s.data.map Char.toLower = "false".data) → inferTypeStr s = "boolean") ∧
    (parsesAsInt s = false → parsesAsFloat s = false →
      s.data.map Char.toLower ≠ "true".data →
      s.data.map Char.toLower ≠ "false".data → inferTypeStr s = "string") := by
  refine ⟨?_, ?_, ?_, ?_⟩
  · intro hint
    have hT : ¬s.data.map Char.toLower = "true".data := fun he => by
      rw [parsesAsInt_false_of_true_word he] at hint
      exact Bool.noConfusion hint
    have hF : ¬s.data.map Char.toLower = "false".data := fun he => by
      rw [parsesAsInt_false_of_false_word he] at hint
      exact Bool.noConfusion hint
    simp [inferTypeStr, hT, hF, hint]
  · intro hni hf
    have hT : ¬s.data.map Char.toLower = "true".data := fun he => by
      rw [parsesAsFloat_false_of_true_word he] at hf
      exact Bool.noConfusion hf
    have hF : ¬s.data.map Char.toLower = "false".data := fun he => by
      rw [parsesAsFloat_false_of_false_word he] at hf
      exact Bool.noConfusion hf
    simp [inferTypeStr, hT, hF, hni, hf]
  · intro hb
    rcases hb with hb | hb <;> simp [inferTypeStr, hb]
  · intro h1 h2 h3 h4
    simp [inferTypeStr, h1, h2, h3, h4]

/-- Witness for C10 at concrete inputs covering all four branches. -/
theorem c10_witness :
    inferTypeStr "42" = "integer" ∧ inferTypeStr "3.5" = "number" ∧
    inferTypeStr "True" = "boolean" ∧ inferTypeStr "abc" = "string" :=
  ⟨(c10_infer_type_string_coercion "42").1 (by decide),
   (c10_infer_type_string_coercion "3.5").2.1 (by decide) (by decide),
   (c10_infer_type_string_coercion "True").2.2.1 (Or.inl (by decide)),
   (c10_infer_type_string_coercion "abc").2.2.2 (by decide) (by decide)
     (by decide) (by decide)⟩

/-- C5 counterexample: merging an itemless array schema (left) with an
array schema carrying integer items (right) does NOT keep the right
operand's items; the result's items is the any-schema, so the claim
"keeps that operand's items unmodified regardless of whether it is the
left or the right operand" fails. -/
theorem c5_counterexample :
    mergeSchemas (.mk "array" none none false none none none)
      (.mk "array" none none false none none
        (some (.mk "integer" none none false none none none))) =
      .mk "array" none none false none none (some Schema.anyS) ∧
    Schema.anyS ≠ Schema.mk "integer" none none false none none none := by
  constructor
  · simp [mergeSchemas]
  · intro h
    have h2 := congrArg Schema.ty h
    simp [Schema.anyS, Schema.ty] at h2

/-- C5 (amended): when merging two array schemas where exactly one
operand carries an items schema, the result keeps the LEFT operand's
items unmodified; when only the RIGHT operand carries items, that items
schema is discarded and the result's items is the generic any-schema. -/
theorem c5_one_sided_array_items (s1 s2 : Schema)
    (ha : s1.ty = "array") (hb : s2.ty = "array") :
    (∀ a, s1.items = some a → s2.items = none →
      (mergeSchemas s1 s2).items = some a) ∧
    (∀ b, s1.items = none → s2.items = some b →
      (mergeSchemas s1 s2).items = some Schema.anyS) := by
  cases s1 with
  | mk t1 e1 f1 n1 p1 r1 i1 =>
    cases s2 with
    | mk t2 e2 f2 n2 p2 r2 i2 =>
      simp [Schema.ty] at ha hb
      subst ha
      subst hb
      constructor
      · intro a h1i h2i
        simp [Schema.items] at h1i h2i
        subst h1i
        subst h2i
        simp [mergeSchemas, Schema.items]
      · intro b h1i h2i
        simp [Schema.items] at h1i h2i
        subst h1i
        subst h2i
        simp [mergeSchemas, Schema.items]

/-- Witness for C5 (amended) at concrete one-sided array schemas. -/
theorem c5_one_sided_array_items_witness :
    (mergeSchemas
      (.mk "array" none none false none none
        (some (.mk "integer" none none false none none none)))
      (.mk "array" none none false none none none)).items =
      some (.mk "integer" none none false none none none) :=
  (c5_one_sided_array_items
    (.mk "array" none none false none none
      (some (.mk "integer" none none false none none none)))
    (.mk "array" none none false none none none) rfl rfl).1 _ rfl rfl


theorem bool_guard_iff (c : Prop) [Decidable c] (p : String) :
    ((decide c && (decide (p ≠ "") && !startsWithBrace p)) = true) ↔
    (c ∧ p ≠ "" ∧ startsWithBrace p = false) := by
  simp [Bool.and_eq_true, decide_eq_true_eq, Bool.not_eq_true']

/-- Characterization of `generateParamName` with propositional
branch conditions. -/
theorem generateParamName_eq (segs : List String) (i : Nat) :
    generateParamName segs i =
      (if i > 0 ∧ segs.getD (i - 1) "" ≠ "" ∧
          startsWithBrace (segs.getD (i - 1) "") = false then
        segs.getD (i - 1) "" ++ "Id"
       else if i < segs.length - 1 ∧ segs.getD (i + 1) "" ≠ "" ∧
          startsWithBrace (segs.getD (i + 1) "") = false then
        segs.getD (i + 1) "" ++ "Id"
       else "id") := by
  unfold generateParamName
  exact if_congr (bool_guard_iff _ _) rfl
    (if_congr (bool_guard_iff _ _) rfl rfl)

/-- C6 counterexample: normalizing `/users/abc123` yields the
placeholder `\x7busersId\x7d` built from the raw previous segment
`users`, not the singularized `\x7buserId\x7d` the claim promises. -/
theorem c6_counterexample :
    (extractPathPattern "/users/abc123").1 = "/users/\x7busersId\x7d" ∧
    ("/users/\x7busersId\x7d" : String) ≠ "/users/\x7buserId\x7d" := by
  constructor
  · decide
  · decide

/-- C6 (amended): a path segment that contains at least one digit, has
length greater than 5 and matches none of the numeric/UUID/24-hex rules
is replaced by a placeholder named after the raw (not singularized)
previous path segment plus `Id` (skipped when the previous segment is
empty or itself starts with a brace), falling back to the next segment
plus `Id`, and finally to the generic `id`; the neighbour segments are
taken relative to the first occurrence of the segment value
(`segments.index`), here assumed to be the position at hand. -/
theorem c6_opaque_token_placeholder (segs : List String) (i : Nat)
    (seg : String)
    (hget : segs.get? i = some seg)
    (hfirst : listIndex segs seg = i)
    (hne : seg ≠ "")
    (hnd : pyIsDigit seg = false)
    (hnu : isUuidLower (seg.data.map Char.toLower) = false)
    (hnh : isHex24 seg = false)
    (hdig : seg.data.any Char.isDigit = true)
    (hlen : seg.data.length > 5) :
    (extractPathSegments segs).get? i =
      some (braceWrap (generateParamName segs i)) ∧
    generateParamName segs i =
      (if i > 0 ∧ segs.getD (i - 1) "" ≠ "" ∧
          startsWithBrace (segs.getD (i - 1) "") = false then
        segs.getD (i - 1) "" ++ "Id"
       else if i < segs.length - 1 ∧ segs.getD (i + 1) "" ≠ "" ∧
          startsWithBrace (segs.getD (i + 1) "") = false then
        segs.getD (i + 1) "" ++ "Id"
       else "id") := by
  constructor
  · unfold extractPathSegments
    rw [List.get?_map, hget]
    simp only [Option.map_some']
    rw [extractSegment, if_neg hne, if_neg (by simp [hnd]),
      if_neg (by simp [hnu]), if_neg (by simp [hnh]),
      if_pos (by simp [hdig]; exact hlen)]
    rw [hfirst]
  · exact generateParamName_eq segs i

/-- Witness for C6 (amended) on the path `/users/abc123`. -/
theorem c6_opaque_token_placeholder_witness :
    (extractPathSegments ["", "users", "abc123"]).get? 2 =
      some "\x7busersId\x7d" := by
  have h := c6_opaque_token_placeholder ["", "users", "abc123"] 2 "abc123"
    (by decide) (by decide) (by decide) (by decide) (by decide) (by decide)
    (by decide) (by decide)
  rw [h.1]
  decide

/-- Pairwise distinctness of dict keys (Python dicts cannot carry
duplicate keys). -/
def keysNodup : List String → Bool
  | [] => true
  | k :: rest => !rest.contains k && keysNodup rest

/- Well-formedness of the JSON values Python can hand to the parser:
every object level has distinct keys. -/
mutual

/-- Well-formed JSON: all object field dicts have distinct keys. -/
def jsonWFb : Json → Bool
  | .obj fields => keysNodup (fields.map (·.1)) && jsonWFbProps fields
  | .arr l => jsonWFbList l
  | _ => true
termination_by j => sizeOf j

def jsonWFbList : List Json → Bool
  | [] => true
  | x :: rest => jsonWFb x && jsonWFbList rest
termination_by l => sizeOf l

def jsonWFbProps : List (String × Json) → Bool
  | [] => true
  | kv :: rest => jsonWFb kv.2 && jsonWFbProps rest
termination_by l => sizeOf l
decreasing_by
  all_goals try have h3 := sizeOf_snd_lt kv
  all_goals simp
  all_goals omega

end

/- Well-formedness of the schema dicts `_extract_schema` and
`_merge_schemas` produce: objects carry `properties` and `required` and
no `items`, arrays carry `items` only, all other types carry none of the
three, and property dicts have distinct keys. -/
mutual

/-- Well-formed schema dict; see the block comment above. -/
def schemaWFb : Schema → Bool
  | .mk t _ _ _ p r i =>
    (if t = "object" then p.isSome && r.isSome && i.isNone
     else if t = "array" then p.isNone && r.isNone && i.isSome
     else p.isNone && r.isNone && i.isNone) &&
    (match p with
     | none => true
     | some ps => keysNodup (ps.map (·.1)) && schemaWFbProps ps) &&
    (match i with
     | none => true
     | some s => schemaWFb s)
termination_by s => sizeOf s

def schemaWFbProps : List (String × Schema) → Bool
  | [] => true
  | kv :: rest => schemaWFb kv.2 && schemaWFbProps rest
termination_by l => sizeOf l
decreasing_by
  all_goals try have h1 := sizeOf_getD_le p
  all_goals try have h3 := sizeOf_snd_lt kv
  all_goals simp
  all_goals omega

end

/- The structural part of a schema dict: the `example`, `format` and
`nullable` metadata keys are removed at every level, everything else is
kept. -/
mutual

/-- Metadata-stripping; see the block comment above. -/
def stripMeta : Schema → Schema
  | .mk t _ _ _ p r i =>
    .mk t none none false
      (match p with
       | none => none
       | some ps => some (stripProps ps))
      r
      (match i with
       | none => none
       | some s => some (stripMeta s))
termination_by s => sizeOf s

def stripProps : List (String × Schema) → List (String × Schema)
  | [] => []
  | kv :: rest => (kv.1, stripMeta kv.2) :: stripProps rest
termination_by l => sizeOf l
decreasing_by
  all_goals try have h3 := sizeOf_snd_lt kv
  all_goals simp
  all_goals omega

end

/-- Size-based induction principle for the nested inductive `Schema`. -/
theorem Schema.strongInductionOn {P : Schema → Prop}
    (hmk : ∀ t e f n p r i,
      (∀ ps, p = some ps → ∀ kv ∈ ps, P kv.2) →
      (∀ s, i = some s → P s) →
      P (.mk t e f n p r i)) :
    ∀ s, P s := by
  have key : ∀ m (s : Schema), sizeOf s = m → P s := by
    intro m
    induction m using Nat.strong_induction_on with
    | _ m ih =>
      intro s hs
      match s with
      | .mk t e f n p r i =>
        apply hmk
        · intro ps hps kv hkv
          have h1 : sizeOf kv < sizeOf ps := List.sizeOf_lt_of_mem hkv
          have h2 := sizeOf_snd_lt kv
          refine ih (sizeOf kv.2) ?_ kv.2 rfl
          subst hs hps
          simp
          omega
        · intro s0 hs0
          refine ih (sizeOf s0) ?_ s0 rfl
          subst hs hs0
          simp
          omega
  exact fun s => key (sizeOf s) s rfl

theorem alistFind_cons {α : Type _} (k0 : String) (a0 : α) (rest : List (String × α))
    (k : String) :
    alistFind ((k0, a0) :: rest) k =
      if k0 = k then some a0 else alistFind rest k := by
  simp only [alistFind, List.find?]
  by_cases h : k0 = k
  · simp [h]
  · simp [h]

theorem alistFind_self {ps : List (String × Schema)} {k : String} {a : Schema}
    (hnd : keysNodup (ps.map (·.1)) = true) (hmem : (k, a) ∈ ps) :
    alistFind ps k = some a := by
  induction ps with
  | nil => simp at hmem
  | cons kv rest ih =>
    obtain ⟨k0, a0⟩ := kv
    simp only [List.map_cons, keysNodup, Bool.and_eq_true, Bool.not_eq_true'] at hnd
    rw [alistFind_cons]
    rcases List.mem_cons.mp hmem with he | hr
    · simp at he
      simp [he.1, he.2]
    · by_cases hk : k0 = k
      · exfalso
        subst hk
        have hmm : k0 ∈ rest.map (·.1) := by
          have := List.mem_map_of_mem (fun x => x.1) hr
          simpa using this
        have hc : (rest.map (·.1)).contains k0 = true := by
          simpa using hmm
        rw [hc] at hnd
        exact Bool.noConfusion hnd.1
      · rw [if_neg hk]
        exact ih hnd.2 hr

theorem alistFind_isSome_of_mem {α : Type _} {ps : List (String × α)}
    {kv : String × α} (hmem : kv ∈ ps) : (alistFind ps kv.1).isSome = true := by
  unfold alistFind
  cases hf : ps.find? (fun p => p.1 = kv.1) with
  | some x => simp
  | none =>
    exfalso
    have := List.find?_eq_none.mp hf kv hmem
    simp at this

theorem alistFind_mem {α : Type _} {ps : List (String × α)} {k : String}
    {b : α} (h : alistFind ps k = some b) : (k, b) ∈ ps := by
  unfold alistFind at h
  match hf : ps.find? (fun p => p.1 = k) with
  | none => rw [hf] at h; simp at h
  | some kv =>
    rw [hf] at h
    simp at h
    have hm := List.mem_of_find?_eq_some hf
    have hp := List.find?_some hf
    simp at hp
    obtain ⟨k0, b0⟩ := kv
    simp at h hp
    subst h hp
    exact hm

theorem filter_isNone_nil (ps : List (String × Schema)) :
    ps.filter (fun kv => (alistFind ps kv.1).isNone) = [] := by
  rw [List.filter_eq_nil]
  intro kv hkv
  have h := alistFind_isSome_of_mem hkv
  cases hv : alistFind ps kv.1 with
  | some b => simp [hv]
  | none => rw [hv] at h; simp at h

theorem filter_contains_self (req : List String) :
    req.filter (fun k => req.contains k) = req := by
  rw [List.filter_eq_self]
  intro k hk
  simpa using hk

theorem mergePropsLeft_diag {ps2 l : List (String × Schema)}
    (hfind : ∀ kv ∈ l, alistFind ps2 kv.1 = some kv.2)
    (hself : ∀ kv ∈ l, mergeSchemas kv.2 kv.2 = stripMeta kv.2) :
    mergePropsLeft ps2 l = stripProps l := by
  induction l with
  | nil => rw [mergePropsLeft, stripProps]
  | cons kv rest ih =>
    obtain ⟨k, a⟩ := kv
    rw [mergePropsLeft, stripProps]
    rw [hfind (k, a) (List.mem_cons_self _ _)]
    dsimp only
    rw [hself (k, a) (List.mem_cons_self _ _)]
    rw [ih (fun kv h => hfind kv (List.mem_cons_of_mem _ h))
      (fun kv h => hself kv (List.mem_cons_of_mem _ h))]

theorem schemaWFbProps_mem {ps : List (String × Schema)}
    (h : schemaWFbProps ps = true) : ∀ kv ∈ ps, schemaWFb kv.2 = true := by
  induction ps with
  | nil => intro kv hkv; simp at hkv
  | cons kv0 rest ih =>
    intro kv hkv
    rw [schemaWFbProps] at h
    simp only [Bool.and_eq_true] at h
    rcases List.mem_cons.mp hkv with he | hr
    · subst he
      exact h.1
    · exact ih h.2 kv hr

/-- Core of the amended C2: on well-formed schemas, merging a schema
with itself yields the schema with its metadata stripped. -/
theorem mergeSchemas_self_of_wf :
    ∀ s, schemaWFb s = true → mergeSchemas s s = stripMeta s := by
  intro s
  induction s using Schema.strongInductionOn with
  | hmk t e f n p r i ihp ihi =>
    intro hwf
    rw [schemaWFb.eq_def] at hwf
    simp only [Bool.and_eq_true] at hwf
    obtain ⟨⟨hshape, hprops⟩, hitems⟩ := hwf
    by_cases ht : t = "object"
    · rw [if_pos ht] at hshape
      simp only [Bool.and_eq_true, Option.isSome_iff_exists,
        Option.isNone_iff_eq_none] at hshape
      obtain ⟨⟨⟨ps, hp⟩, ⟨req, hr⟩⟩, hi⟩ := hshape
      subst hp hr hi
      simp only [Bool.and_eq_true] at hprops
      rw [mergeSchemas, stripMeta]
      rw [if_neg (by simp), if_pos ht]
      dsimp only
      simp only [Option.getD_some]
      rw [filter_isNone_nil, List.map_nil, List.append_nil,
        filter_contains_self]
      rw [mergePropsLeft_diag
        (fun kv hkv => alistFind_self hprops.1 (by
          have : (kv.1, kv.2) = kv := rfl
          rw [this]
          exact hkv))
        (fun kv hkv => ihp ps rfl kv hkv (schemaWFbProps_mem hprops.2 kv hkv))]
      intro a b hab
      exact Option.noConfusion hab
    · by_cases ha : t = "array"
      · rw [if_pos ha, if_neg ht] at hshape
        simp only [Bool.and_eq_true, Option.isSome_iff_exists,
          Option.isNone_iff_eq_none] at hshape
        obtain ⟨⟨hp, hr⟩, ⟨s0, hi⟩⟩ := hshape
        subst hp hr hi
        rw [mergeSchemas, stripMeta]
        rw [if_neg (by simp), if_neg ht, if_pos ha]
        rw [ihi s0 rfl (by simpa using hitems)]
      · rw [if_neg ht, if_neg ha] at hshape
        simp only [Bool.and_eq_true, Option.isNone_iff_eq_none] at hshape
        obtain ⟨⟨hp, hr⟩, hi⟩ := hshape
        subst hp hr hi
        rw [mergeSchemas, stripMeta]
        rw [if_neg (by simp), if_neg ht, if_neg ha]
        intro a b hab
        exact Option.noConfusion hab

theorem keysNodup_iff_nodup {l : List String} :
    keysNodup l = true ↔ l.Nodup := by
  induction l with
  | nil => simp [keysNodup]
  | cons k rest ih =>
    rw [keysNodup]
    simp only [Bool.and_eq_true, Bool.not_eq_true', List.nodup_cons]
    constructor
    · intro h
      refine ⟨?_, ih.mp h.2⟩
      intro hmem
      have : rest.contains k = true := by simpa using hmem
      rw [this] at h
      exact Bool.noConfusion h.1
    · intro h
      refine ⟨?_, ih.mpr h.2⟩
      by_cases hc : rest.contains k = true
      · exact absurd (by simpa using hc) h.1
      · simpa using hc

theorem schemaWFb_setNullable (s : Schema) :
    schemaWFb s.setNullable = schemaWFb s := by
  cases s with
  | mk t e f n p r i =>
    rw [Schema.setNullable]
    rw [schemaWFb.eq_def]
    conv_rhs => rw [schemaWFb.eq_def]

theorem schemaWFb_anyS : schemaWFb Schema.anyS = true := by
  rw [Schema.anyS, schemaWFb.eq_def]
  simp

theorem schemaWFbProps_of_forall {l : List (String × Schema)}
    (h : ∀ kv ∈ l, schemaWFb kv.2 = true) : schemaWFbProps l = true := by
  induction l with
  | nil => rw [schemaWFbProps]
  | cons kv rest ih =>
    rw [schemaWFbProps]
    simp only [Bool.and_eq_true]
    exact ⟨h kv (List.mem_cons_self _ _),
      ih (fun kv' h' => h kv' (List.mem_cons_of_mem _ h'))⟩

theorem keys_mergePropsLeft (ps2 l : List (String × Schema)) :
    (mergePropsLeft ps2 l).map (·.1) = l.map (·.1) := by
  induction l with
  | nil => rw [mergePropsLeft]
  | cons kv rest ih =>
    obtain ⟨k, a⟩ := kv
    rw [mergePropsLeft]
    cases hf : alistFind ps2 k <;> simp [ih]

theorem schemaWFbProps_mergePropsLeft {ps2 l : List (String × Schema)}
    (hl : ∀ kv ∈ l, schemaWFb kv.2 = true)
    (h2 : ∀ kv ∈ ps2, schemaWFb kv.2 = true)
    (ihm : ∀ kv ∈ l, ∀ b, schemaWFb kv.2 = true → schemaWFb b = true →
      schemaWFb (mergeSchemas kv.2 b) = true) :
    schemaWFbProps (mergePropsLeft ps2 l) = true := by
  induction l with
  | nil => rw [mergePropsLeft, schemaWFbProps]
  | cons kv rest ih =>
    obtain ⟨k, a⟩ := kv
    rw [mergePropsLeft, schemaWFbProps]
    simp only [Bool.and_eq_true]
    constructor
    · cases hf : alistFind ps2 k with
      | some b =>
        have hb : schemaWFb b = true := h2 (k, b) (alistFind_mem hf)
        exact ihm (k, a) (List.mem_cons_self _ _) b
          (hl (k, a) (List.mem_cons_self _ _)) hb
      | none =>
        rw [schemaWFb_setNullable]
        exact hl (k, a) (List.mem_cons_self _ _)
    · exact ih (fun kv' h' => hl kv' (List.mem_cons_of_mem _ h'))
        (fun kv' h' b hw hb => ihm kv' (List.mem_cons_of_mem _ h') b hw hb)

theorem schemaWFbProps_append {l1 l2 : List (String × Schema)}
    (h1 : schemaWFbProps l1 = true) (h2 : schemaWFbProps l2 = true) :
    schemaWFbProps (l1 ++ l2) = true := by
  apply schemaWFbProps_of_forall
  intro kv hkv
  rcases List.mem_append.mp hkv with h | h
  · exact schemaWFbProps_mem h1 kv h
  · exact schemaWFbProps_mem h2 kv h


/-- Unconditional unfolding equation for `mergeSchemas`. -/
theorem mergeSchemas_eq (t1 t2 : String) (e1 e2 : Option Json)
    (f1 f2 : Option String) (n1 n2 : Bool)
    (p1 p2 : Option (List (String × Schema))) (r1 r2 : Option (List String))
    (i1 i2 : Option Schema) :
    mergeSchemas (.mk t1 e1 f1 n1 p1 r1 i1) (.mk t2 e2 f2 n2 p2 r2 i2) =
    if t1 ≠ t2 then Schema.anyS
    else if t1 = "object" then
      .mk t1 none none false
        (some (mergePropsLeft (p2.getD []) (p1.getD []) ++
          ((p2.getD []).filter
            (fun kv => (alistFind (p1.getD []) kv.1).isNone)).map
            (fun kv => (kv.1, kv.2.setNullable))))
        (some ((r1.getD []).filter (fun k => (r2.getD []).contains k))) none
    else if t1 = "array" then
      match i1, i2 with
      | some a, some b => .mk t1 none none false none none
          (some (mergeSchemas a b))
      | _, _ => .mk t1 none none false none none (some (i1.getD Schema.anyS))
    else .mk t1 none none false none none none := by
  cases i1 <;> cases i2 <;> rw [mergeSchemas] <;>
    first
    | rfl
    | (intro a b hab hab2
       first
       | exact Option.noConfusion hab
       | exact Option.noConfusion hab2)

theorem map_fst_map_pair {α β γ : Type _} (l : List (α × β))
    (g : α × β → γ) :
    (l.map (fun kv => (kv.1, g kv))).map (·.1) = l.map (·.1) := by
  induction l with
  | nil => simp
  | cons kv rest ih => simp [ih]

/-- Well-formedness is preserved by `_merge_schemas`. -/
theorem schemaWFb_merge :
    ∀ s1, ∀ s2, schemaWFb s1 = true → schemaWFb s2 = true →
      schemaWFb (mergeSchemas s1 s2) = true := by
  intro s1
  induction s1 using Schema.strongInductionOn with
  | hmk t1 e1 f1 n1 p1 r1 i1 ihp ihi =>
    intro s2 hw1 hw2
    cases s2 with
    | mk t2 e2 f2 n2 p2 r2 i2 =>
      rw [schemaWFb.eq_def] at hw1 hw2
      simp only [Bool.and_eq_true] at hw1 hw2
      obtain ⟨⟨hshape1, hprops1⟩, hitems1⟩ := hw1
      obtain ⟨⟨hshape2, hprops2⟩, hitems2⟩ := hw2
      rw [mergeSchemas_eq]
      by_cases hne : t1 ≠ t2
      · rw [if_pos hne]
        exact schemaWFb_anyS
      · rw [if_neg hne]
        push_neg at hne
        subst hne
        by_cases ht : t1 = "object"
        · rw [if_pos ht]
          rw [if_pos ht] at hshape1 hshape2
          simp only [Bool.and_eq_true, Option.isSome_iff_exists,
            Option.isNone_iff_eq_none] at hshape1 hshape2
          obtain ⟨⟨⟨ps1, hp1⟩, ⟨req1, hr1⟩⟩, hi1⟩ := hshape1
          obtain ⟨⟨⟨ps2, hp2⟩, ⟨req2, hr2⟩⟩, hi2⟩ := hshape2
          subst hp1 hr1 hi1 hp2 hr2 hi2
          simp only [Option.getD_some]
          simp only [Bool.and_eq_true] at hprops1 hprops2
          rw [schemaWFb.eq_def]
          simp only [Bool.and_eq_true]
          refine ⟨⟨?_, ?_⟩, ?_⟩
          · simp [ht]
          · constructor
            · rw [keysNodup_iff_nodup, List.map_append, keys_mergePropsLeft,
                map_fst_map_pair, List.nodup_append]
              refine ⟨keysNodup_iff_nodup.mp hprops1.1, ?_, ?_⟩
              · rw [keysNodup_iff_nodup] at hprops2
                exact (List.Sublist.map (fun x => x.1)
                  (List.filter_sublist ps2)).nodup hprops2.1
              · intro k hk1 hk2
                obtain ⟨kv, hkvmem, hkve⟩ := List.mem_map.mp hk2
                have hfil := (List.mem_filter.mp hkvmem).2
                obtain ⟨kv1, hkv1mem, hkv1e⟩ := List.mem_map.mp hk1
                have hsome : (alistFind ps1 kv1.1).isSome = true :=
                  alistFind_isSome_of_mem hkv1mem
                rw [hkv1e] at hsome
                rw [hkve] at hfil
                simp only [decide_eq_true_eq, Option.isNone_iff_eq_none] at hfil
                rw [hfil] at hsome
                exact Bool.noConfusion hsome
            · apply schemaWFbProps_append
              · exact schemaWFbProps_mergePropsLeft
                  (schemaWFbProps_mem hprops1.2)
                  (schemaWFbProps_mem hprops2.2)
                  (fun kv hkv b hwkv hwb => ihp ps1 rfl kv hkv b hwkv hwb)
              · apply schemaWFbProps_of_forall
                intro kv hkv
                obtain ⟨kv0, hkv0mem, hkv0e⟩ := List.mem_map.mp hkv
                rw [← hkv0e]
                dsimp only
                rw [schemaWFb_setNullable]
                exact schemaWFbProps_mem hprops2.2 kv0
                  (List.mem_of_mem_filter hkv0mem)
          · trivial
        · by_cases ha : t1 = "array"
          · rw [if_neg ht, if_pos ha]
            rw [if_neg ht, if_pos ha] at hshape1 hshape2
            simp only [Bool.and_eq_true, Option.isSome_iff_exists,
              Option.isNone_iff_eq_none] at hshape1 hshape2
            obtain ⟨⟨hp1, hr1⟩, ⟨a, hi1⟩⟩ := hshape1
            obtain ⟨⟨hp2, hr2⟩, ⟨b, hi2⟩⟩ := hshape2
            subst hp1 hr1 hi1 hp2 hr2 hi2
            rw [schemaWFb.eq_def]
            simp only [Bool.and_eq_true]
            refine ⟨⟨?_, ?_⟩, ?_⟩
            · simp [ht, ha]
            · trivial
            · exact ihi a rfl b hitems1 hitems2
          · rw [if_neg ht, if_neg ha]
            rw [schemaWFb.eq_def]
            simp [ht, ha]

theorem extractItems_eq_map (l : List Json) (d : Nat) :
    extractItems l d = l.map (fun x => extractSchema x d) := by
  induction l with
  | nil => rw [extractItems]; rfl
  | cons x rest ih => rw [extractItems, ih]; rfl

theorem extractProps_eq_map (l : List (String × Json)) (d : Nat) :
    extractProps l d = l.map (fun kv => (kv.1, extractSchema kv.2 d)) := by
  induction l with
  | nil => rw [extractProps]; rfl
  | cons kv rest ih => rw [extractProps, ih]; rfl

theorem jsonWFbList_mem {l : List Json} (h : jsonWFbList l = true) :
    ∀ x ∈ l, jsonWFb x = true := by
  induction l with
  | nil => intro x hx; simp at hx
  | cons y rest ih =>
    intro x hx
    rw [jsonWFbList] at h
    simp only [Bool.and_eq_true] at h
    rcases List.mem_cons.mp hx with he | hr
    · subst he; exact h.1
    · exact ih h.2 x hr

theorem jsonWFbProps_mem {l : List (String × Json)} (h : jsonWFbProps l = true) :
    ∀ kv ∈ l, jsonWFb kv.2 = true := by
  induction l with
  | nil => intro kv hkv; simp at hkv
  | cons kv0 rest ih =>
    intro kv hkv
    rw [jsonWFbProps] at h
    simp only [Bool.and_eq_true] at h
    rcases List.mem_cons.mp hkv with he | hr
    · subst he; exact h.1
    · exact ih h.2 kv hr

theorem schemaWFb_foldl_merge {init : Schema} {ls : List Schema}
    (h0 : schemaWFb init = true) (hs : ∀ s ∈ ls, schemaWFb s = true) :
    schemaWFb (ls.foldl mergeSchemas init) = true := by
  induction ls generalizing init with
  | nil => exact h0
  | cons s rest ih =>
    rw [List.foldl_cons]
    exact ih (schemaWFb_merge init s h0 (hs s (List.mem_cons_self _ _)))
      (fun s' h' => hs s' (List.mem_cons_of_mem _ h'))

/-- Schemas extracted from well-formed JSON values are well-formed. -/
theorem schemaWFb_extract :
    ∀ j, jsonWFb j = true → ∀ d, schemaWFb (extractSchema j d) = true := by
  intro j
  induction j using Json.inductionOn with
  | hnull =>
    intro _ d
    rw [extractSchema]
    split
    · exact schemaWFb_anyS
    · rw [schemaWFb.eq_def]; simp
  | hb v =>
    intro _ d
    rw [extractSchema]
    split
    · exact schemaWFb_anyS
    · rw [schemaWFb.eq_def]; simp
  | hi v =>
    intro _ d
    rw [extractSchema]
    split
    · exact schemaWFb_anyS
    · rw [schemaWFb.eq_def]; simp
  | hf id =>
    intro _ d
    rw [extractSchema]
    split
    · exact schemaWFb_anyS
    · rw [schemaWFb.eq_def]; simp
  | hs v =>
    intro _ d
    rw [extractSchema]
    split
    · exact schemaWFb_anyS
    · rw [schemaWFb.eq_def]; simp
  | harr l ihl =>
    intro hwf d
    cases l with
    | nil =>
      rw [extractSchema]
      split
      · exact schemaWFb_anyS
      · rw [schemaWFb.eq_def]
        simp [schemaWFb_anyS]
    | cons x rest =>
      rw [extractSchema]
      split
      · exact schemaWFb_anyS
      · rw [jsonWFb] at hwf
        have hmemwf := jsonWFbList_mem hwf
        rw [schemaWFb.eq_def]
        simp only [Bool.and_eq_true]
        refine ⟨⟨by simp, by trivial⟩, ?_⟩
        rw [extractItems_eq_map]
        apply schemaWFb_foldl_merge
        · exact ihl x (List.mem_cons_self _ _) (hmemwf x (List.mem_cons_self _ _)) (d + 1)
        · intro s hs
          obtain ⟨y, hy, hye⟩ := List.mem_map.mp hs
          rw [← hye]
          have hyr : y ∈ rest := List.take_subset 9 rest hy
          exact ihl y (List.mem_cons_of_mem _ hyr)
            (hmemwf y (List.mem_cons_of_mem _ hyr)) (d + 1)
  | hobj fields ihf =>
    intro hwf d
    rw [extractSchema]
    split
    · exact schemaWFb_anyS
    · rw [jsonWFb] at hwf
      simp only [Bool.and_eq_true] at hwf
      rw [schemaWFb.eq_def]
      simp only [Bool.and_eq_true]
      refine ⟨⟨by simp, ?_⟩, by trivial⟩
      constructor
      · rw [extractProps_eq_map, map_fst_map_pair]
        exact hwf.1
      · rw [extractProps_eq_map]
        apply schemaWFbProps_of_forall
        intro kv hkv
        obtain ⟨kv0, hkv0, hkv0e⟩ := List.mem_map.mp hkv
        rw [← hkv0e]
        exact ihf kv0 hkv0 (jsonWFbProps_mem hwf.2 kv0 hkv0) (d + 1)

/-- C2 counterexample: for the schema inferred from the integer `5`
(which carries an `example` metadata key), `merge(s, s)` drops the
metadata and therefore differs from `s`; idempotence as claimed fails. -/
theorem c2_counterexample :
    mergeSchemas (extractSchema (.i 5) 0) (extractSchema (.i 5) 0) ≠
      extractSchema (.i 5) 0 := by
  have h1 : extractSchema (.i 5) 0 =
      .mk "integer" (some (.i 5)) none false none none none := by
    rw [extractSchema]
    simp
  have h2 : mergeSchemas (.mk "integer" (some (.i 5)) none false none none none)
      (.mk "integer" (some (.i 5)) none false none none none) =
      .mk "integer" none none false none none none := by
    rw [mergeSchemas_eq]
    simp
  rw [h1, h2]
  intro h
  have := congrArg Schema.exmpl h
  simp [Schema.exmpl] at this

/-- C2 (amended): for every schema `s` that schema inference can produce
from a JSON value (at any depth), `merge(s, s)` equals `s` with its
`example`/`format`/`nullable` metadata recursively stripped; the
structural part (type tag, properties, required, items) is preserved
exactly, the metadata is lost. -/
theorem c2_merge_idempotent_modulo_metadata (j : Json) (d : Nat)
    (hwf : jsonWFb j = true) :
    mergeSchemas (extractSchema j d) (extractSchema j d) =
      stripMeta (extractSchema j d) :=
  mergeSchemas_self_of_wf _ (schemaWFb_extract j hwf d)

/-- Witness for C2 (amended) at a concrete two-field object. -/
theorem c2_merge_idempotent_modulo_metadata_witness :
    mergeSchemas (extractSchema (.obj [("a", .i 1), ("b", .s "x")]) 0)
        (extractSchema (.obj [("a", .i 1), ("b", .s "x")]) 0) =
      stripMeta (extractSchema (.obj [("a", .i 1), ("b", .s "x")]) 0) :=
  c2_merge_idempotent_modulo_metadata (.obj [("a", .i 1), ("b", .s "x")]) 0
    (by simp [jsonWFb, jsonWFbProps, keysNodup])

theorem foldl_mergeInto_some (rest : List Json) (acc : Schema) :
    rest.foldl (fun acc j => mergeInto acc (extractSchema j 0)) (some acc) =
      some ((rest.map (fun j => extractSchema j 0)).foldl mergeSchemas acc) := by
  induction rest generalizing acc with
  | nil => rfl
  | cons j rest ih =>
    rw [List.foldl_cons, List.map_cons, List.foldl_cons]
    exact ih (mergeSchemas acc (extractSchema j 0))

/-- The progressive `_merge_schema` accumulation over a sample list is
the left fold of `_merge_schemas` over the per-sample schemas. -/
theorem unifySamples_eq_foldl (samples : List Json) :
    unifySamples samples =
      match samples.map (fun j => extractSchema j 0) with
      | [] => none
      | h :: t => some (t.foldl mergeSchemas h) := by
  cases samples with
  | nil => rfl
  | cons s rest =>
    rw [unifySamples, List.foldl_cons, List.map_cons]
    exact foldl_mergeInto_some rest (extractSchema s 0)

/-- The type tag recorded for field `k` of an object schema. -/
def fieldTag (s : Schema) (k : String) : Option String :=
  match s.properties with
  | none => none
  | some ps => (alistFind ps k).map Schema.ty

/-- Type-tag combination performed by `_merge_schemas`: equal tags are
kept, differing tags widen to `any`. -/
def tagOp (a b : String) : String := if a = b then a else "any"

theorem mergeSchemas_ty (s1 s2 : Schema) :
    (mergeSchemas s1 s2).ty = tagOp s1.ty s2.ty := by
  cases s1 with
  | mk t1 e1 f1 n1 p1 r1 i1 =>
    cases s2 with
    | mk t2 e2 f2 n2 p2 r2 i2 =>
      rw [mergeSchemas_eq, tagOp]
      simp only [Schema.ty]
      by_cases h : t1 = t2
      · rw [if_neg (by simp [h]), if_pos h]
        by_cases ho : t1 = "object"
        · rw [if_pos ho]
        · by_cases ha : t1 = "array"
          · rw [if_neg ho, if_pos ha]
            cases i1 <;> cases i2 <;> rfl
          · rw [if_neg ho, if_neg ha]
      · rw [if_pos h, if_neg h]
        simp [Schema.anyS, Schema.ty]

theorem alistFind_map_pair {α β : Type _} (l : List (String × α))
    (g : α → β) (k : String) :
    alistFind (l.map (fun kv => (kv.1, g kv.2))) k =
      (alistFind l k).map g := by
  induction l with
  | nil => rfl
  | cons kv rest ih =>
    obtain ⟨k0, a0⟩ := kv
    rw [List.map_cons]
    rw [alistFind_cons, alistFind_cons]
    by_cases h : k0 = k
    · rw [if_pos h, if_pos h]
      rfl
    · rw [if_neg h, if_neg h]
      exact ih

theorem alistFind_mergePropsLeft (ps2 l : List (String × Schema)) (k : String) :
    alistFind (mergePropsLeft ps2 l) k =
      (alistFind l k).map (fun a =>
        match alistFind ps2 k with
        | some b => mergeSchemas a b
        | none => a.setNullable) := by
  induction l with
  | nil =>
    rw [mergePropsLeft]
    rfl
  | cons kv rest ih =>
    obtain ⟨k0, a0⟩ := kv
    rw [mergePropsLeft]
    cases hf : alistFind ps2 k0 with
    | some b =>
      rw [alistFind_cons, alistFind_cons]
      by_cases h : k0 = k
      · rw [if_pos h, if_pos h]
        subst h
        rw [hf]
        rfl
      · rw [if_neg h, if_neg h]
        exact ih
    | none =>
      rw [alistFind_cons, alistFind_cons]
      by_cases h : k0 = k
      · rw [if_pos h, if_pos h]
        subst h
        rw [hf]
        rfl
      · rw [if_neg h, if_neg h]
        exact ih

theorem alistFind_append {α : Type _} (l1 l2 : List (String × α)) (k : String) :
    alistFind (l1 ++ l2) k =
      match alistFind l1 k with
      | some v => some v
      | none => alistFind l2 k := by
  induction l1 with
  | nil => rfl
  | cons kv rest ih =>
    obtain ⟨k0, a0⟩ := kv
    rw [List.cons_append, alistFind_cons, alistFind_cons]
    by_cases h : k0 = k
    · rw [if_pos h, if_pos h]
    · rw [if_neg h, if_neg h]
      exact ih

/-- Merging two object schemas that both carry field `k` keeps the
object tag and combines the field's type tags via `tagOp`. -/
theorem fieldTag_merge {s1 s2 : Schema} {k ta tb : String}
    (h1 : s1.ty = "object") (h2 : s2.ty = "object")
    (hf1 : fieldTag s1 k = some ta) (hf2 : fieldTag s2 k = some tb) :
    (mergeSchemas s1 s2).ty = "object" ∧
    fieldTag (mergeSchemas s1 s2) k = some (tagOp ta tb) := by
  cases s1 with
  | mk t1 e1 f1 n1 p1 r1 i1 =>
    cases s2 with
    | mk t2 e2 f2 n2 p2 r2 i2 =>
      simp only [Schema.ty] at h1 h2
      subst h1 h2
      cases p1 with
      | none => rw [fieldTag] at hf1; simp [Schema.properties] at hf1
      | some ps1 =>
        cases p2 with
        | none => rw [fieldTag] at hf2; simp [Schema.properties] at hf2
        | some ps2 =>
          rw [fieldTag] at hf1 hf2
          simp only [Schema.properties] at hf1 hf2
          obtain ⟨a, hfa, hta⟩ := Option.map_eq_some'.mp hf1
          obtain ⟨b, hfb, htb⟩ := Option.map_eq_some'.mp hf2
          rw [mergeSchemas_eq, if_neg (by simp), if_pos rfl]
          constructor
          · rfl
          · rw [fieldTag]
            simp only [Schema.properties, Option.getD_some]
            rw [alistFind_append, alistFind_mergePropsLeft, hfa]
            simp only [Option.map_some']
            rw [hfb]
            rw [mergeSchemas_ty, hta, htb]

theorem foldl_merge_fieldTag {k : String} {ss : List Schema} {ts : List String}
    (hall : List.Forall₂
      (fun s t => s.ty = "object" ∧ fieldTag s k = some t) ss ts) :
    ∀ init t0, init.ty = "object" → fieldTag init k = some t0 →
    (ss.foldl mergeSchemas init).ty = "object" ∧
    fieldTag (ss.foldl mergeSchemas init) k = some (ts.foldl tagOp t0) := by
  induction hall with
  | nil =>
    intro init t0 hi hf
    exact ⟨hi, by simpa⟩
  | cons hst hrest ih =>
    intro init t0 hi hf
    rw [List.foldl_cons, List.foldl_cons]
    have hm := fieldTag_merge hi hst.1 hf hst.2
    exact ih _ _ hm.1 hm.2

theorem foldl_tagOp_any (ts : List String) : ts.foldl tagOp "any" = "any" := by
  induction ts with
  | nil => rfl
  | cons t rest ih =>
    rw [List.foldl_cons]
    have : tagOp "any" t = "any" := by
      rw [tagOp]
      split <;> rfl
    rw [this, ih]

theorem foldl_tagOp_eq (ts : List String) (t0 : String) :
    ts.foldl tagOp t0 = if ∀ x ∈ ts, x = t0 then t0 else "any" := by
  induction ts generalizing t0 with
  | nil => simp
  | cons t rest ih =>
    rw [List.foldl_cons]
    by_cases he : t = t0
    · subst he
      rw [show tagOp t t = t from by rw [tagOp, if_pos rfl]]
      rw [ih t]
      by_cases hall : ∀ x ∈ rest, x = t
      · rw [if_pos hall, if_pos (by
          intro x hx
          rcases List.mem_cons.mp hx with h | h
          · exact h
          · exact hall x h)]
      · rw [if_neg hall, if_neg (by
          intro hc
          exact hall (fun x hx => hc x (List.mem_cons_of_mem _ hx)))]
    · rw [show tagOp t0 t = "any" from by rw [tagOp, if_neg (fun hh => he hh.symm)]]
      rw [foldl_tagOp_any]
      rw [if_neg (by
        intro hc
        exact he (hc t (List.mem_cons_self _ _)))]

theorem foldTag_perm {t0 t0' : String} {ts ts' : List String}
    (hp : (t0 :: ts).Perm (t0' :: ts')) :
    ts.foldl tagOp t0 = ts'.foldl tagOp t0' := by
  rw [foldl_tagOp_eq, foldl_tagOp_eq]
  by_cases hall : ∀ x ∈ ts, x = t0
  · have hmem : t0' ∈ t0 :: ts := hp.symm.subset (List.mem_cons_self _ _)
    have ht0' : t0' = t0 := by
      rcases List.mem_cons.mp hmem with h | h
      · exact h
      · exact hall _ h
    have hall' : ∀ x ∈ ts', x = t0' := by
      intro x hx
      have hx2 : x ∈ t0 :: ts := hp.symm.subset (List.mem_cons_of_mem _ hx)
      rcases List.mem_cons.mp hx2 with h | h
      · rw [h, ht0']
      · rw [hall x h, ht0']
    rw [if_pos hall, if_pos hall', ht0']
  · have hall' : ¬∀ x ∈ ts', x = t0' := by
      intro hc
      apply hall
      intro x hx
      have hx2 : x ∈ t0' :: ts' := hp.subset (List.mem_cons_of_mem _ hx)
      have ht0 : t0 ∈ t0' :: ts' := hp.subset (List.mem_cons_self _ _)
      have hxt : x = t0' := by
        rcases List.mem_cons.mp hx2 with h | h
        · exact h
        · exact hc x h
      have htt : t0 = t0' := by
        rcases List.mem_cons.mp ht0 with h | h
        · exact h
        · exact hc _ h
      rw [hxt, htt]
    rw [if_neg hall, if_neg hall']

/-- The sample "is an object carrying field `k`". -/
def objHasField (j : Json) (k : String) : Bool :=
  match j with
  | .obj fields => (alistFind fields k).isSome
  | _ => false

/-- The type tag the schema of sample `j` assigns to its field `k`. -/
def sampleFieldTag (j : Json) (k : String) : Option String :=
  match j with
  | .obj fields => (alistFind fields k).map (fun v => (extractSchema v (0 + 1)).ty)
  | _ => none

theorem extract_obj_fieldTag {j : Json} {k : String}
    (h : objHasField j k = true) :
    (extractSchema j 0).ty = "object" ∧
    fieldTag (extractSchema j 0) k = some ((sampleFieldTag j k).getD "any") := by
  match j with
  | .null | .b _ | .i _ | .f _ | .s _ | .arr _ => simp [objHasField] at h
  | .obj fields =>
    rw [objHasField] at h
    obtain ⟨v, hv⟩ := Option.isSome_iff_exists.mp h
    rw [extractSchema, if_neg (by decide)]
    constructor
    · rfl
    · rw [fieldTag]
      simp only [Schema.properties]
      rw [extractProps_eq_map,
        alistFind_map_pair fields (fun v => extractSchema v (0 + 1)) k, hv]
      rw [sampleFieldTag, hv]
      rfl

theorem forall₂_map_same {α β γ : Type _} {R : β → γ → Prop} {l : List α}
    {f : α → β} {g : α → γ} (h : ∀ x ∈ l, R (f x) (g x)) :
    List.Forall₂ R (l.map f) (l.map g) := by
  induction l with
  | nil => exact List.Forall₂.nil
  | cons x rest ih =>
    exact List.Forall₂.cons (h x (List.mem_cons_self _ _))
      (ih (fun y hy => h y (List.mem_cons_of_mem _ hy)))

/-- C4: schema unification over N samples is the left fold of
`_merge_schemas` over the per-sample schemas, and for every object field
present in every sample, the type tag the unified schema assigns to that
field is invariant under permutation of the sample order. -/
theorem c4_unify_fold_and_tag_perm (samples perm : List Json) (k : String)
    (hperm : samples.Perm perm)
    (hobj : ∀ j ∈ samples, objHasField j k = true) :
    (unifySamples samples =
      match samples.map (fun j => extractSchema j 0) with
      | [] => none
      | h :: t => some (t.foldl mergeSchemas h)) ∧
    ((unifySamples samples).bind (fun s => fieldTag s k) =
      (unifySamples perm).bind (fun s => fieldTag s k)) := by
  refine ⟨unifySamples_eq_foldl samples, ?_⟩
  cases samples with
  | nil =>
    have hn : perm = [] := hperm.nil_eq.symm
    subst hn
    rfl
  | cons s0 srest =>
    cases perm with
    | nil =>
      have := hperm.length_eq
      simp at this
    | cons p0 prest =>
      have hobj' : ∀ j ∈ p0 :: prest, objHasField j k = true :=
        fun j hj => hobj j (hperm.symm.subset hj)
      have hs0 := extract_obj_fieldTag (hobj s0 (List.mem_cons_self _ _))
      have hp0 := extract_obj_fieldTag (hobj' p0 (List.mem_cons_self _ _))
      have hfold1 := foldl_merge_fieldTag
        (forall₂_map_same (l := srest)
          (f := fun j => extractSchema j 0)
          (g := fun j => (sampleFieldTag j k).getD "any")
          (fun j hj => extract_obj_fieldTag (hobj j (List.mem_cons_of_mem _ hj))))
        (extractSchema s0 0) ((sampleFieldTag s0 k).getD "any") hs0.1 hs0.2
      have hfold2 := foldl_merge_fieldTag
        (forall₂_map_same (l := prest)
          (f := fun j => extractSchema j 0)
          (g := fun j => (sampleFieldTag j k).getD "any")
          (fun j hj => extract_obj_fieldTag (hobj' j (List.mem_cons_of_mem _ hj))))
        (extractSchema p0 0) ((sampleFieldTag p0 k).getD "any") hp0.1 hp0.2
      rw [unifySamples_eq_foldl, unifySamples_eq_foldl]
      simp only [List.map_cons]
      simp only [Option.some_bind]
      rw [hfold1.2, hfold2.2]
      congr 1
      exact foldTag_perm (List.Perm.map (fun j => (sampleFieldTag j k).getD "any") hperm)

/-- Witness for C4 at two single-field object samples in both orders. -/
theorem c4_unify_fold_and_tag_perm_witness :
    (unifySamples [.obj [("a", .i 1)], .obj [("a", .s "x")]]).bind
        (fun s => fieldTag s "a") =
      (unifySamples [.obj [("a", .s "x")], .obj [("a", .i 1)]]).bind
        (fun s => fieldTag s "a") :=
  (c4_unify_fold_and_tag_perm
    [.obj [("a", .i 1)], .obj [("a", .s "x")]]
    [.obj [("a", .s "x")], .obj [("a", .i 1)]] "a"
    (List.Perm.swap _ _ _) (by decide)).2

theorem splitOnChar_ne_nil (sep : Char) (l : List Char) :
    splitOnChar sep l ≠ [] := by
  cases l with
  | nil => simp [splitOnChar]
  | cons c rest =>
    rw [splitOnChar]
    by_cases h : c = sep
    · simp [h]
    · simp only [if_neg h]
      cases splitOnChar sep rest <;> simp

theorem mem_splitOnChar {sep : Char} {l : List Char} {c : Char} (hc : c ∈ l) :
    c = sep ∨ ∃ part ∈ splitOnChar sep l, c ∈ part := by
  induction l with
  | nil => simp at hc
  | cons c0 rest ih =>
    rw [splitOnChar]
    by_cases h : c0 = sep
    · rw [if_pos h]
      rcases List.mem_cons.mp hc with he | hr
      · left
        rw [he, h]
      · rcases ih hr with hs | ⟨part, hp, hcp⟩
        · left
          exact hs
        · right
          exact ⟨part, List.mem_cons_of_mem _ hp, hcp⟩
    · rw [if_neg h]
      cases hsp : splitOnChar sep rest with
      | nil => exact absurd hsp (splitOnChar_ne_nil sep rest)
      | cons h0 t0 =>
        rcases List.mem_cons.mp hc with he | hr
        · right
          exact ⟨c0 :: h0, List.mem_cons_self _ _, by rw [he]; exact List.mem_cons_self _ _⟩
        · rcases ih hr with hs | ⟨part, hp, hcp⟩
          · left
            exact hs
          · rw [hsp] at hp
            rcases List.mem_cons.mp hp with hph | hpt
            · right
              exact ⟨c0 :: h0, List.mem_cons_self _ _, by
                rw [hph] at hcp
                exact List.mem_cons_of_mem _ hcp⟩
            · right
              exact ⟨part, List.mem_cons_of_mem _ hpt, hcp⟩

theorem isUuidLower_mem {l : List Char} (h : isUuidLower l = true) :
    ∀ c ∈ l, isHexLower c = true ∨ c = '-' := by
  rw [isUuidLower] at h
  intro c hc
  cases hsp : splitOnChar '-' l with
  | nil => exact absurd hsp (splitOnChar_ne_nil _ _)
  | cons a t1 =>
    rw [hsp] at h
    match t1 with
    | [] => simp at h
    | [b] => simp at h
    | [b, c2] => simp at h
    | [b, c2, d] => simp at h
    | b :: c2 :: d :: e :: f :: rest => simp at h
    | [b, c2, d, e] =>
      simp only [Bool.and_eq_true, List.all_eq_true] at h
      rcases mem_splitOnChar hc with hd | ⟨part, hp, hcp⟩
      · right
        exact hd
      · left
        rw [hsp] at hp
        have hmem : c ∈ a ++ b ++ c2 ++ d ++ e := by
          simp only [List.mem_append]
          simp only [List.mem_cons, List.not_mem_nil, or_false] at hp
          rcases hp with h1 | h1 | h1 | h1 | h1 <;> subst h1 <;> tauto
        exact h.2 c hmem

theorem splitOnChar_single {sep : Char} {l : List Char}
    (h : ∀ x ∈ l, ¬x = sep) : splitOnChar sep l = [l] := by
  induction l with
  | nil => rfl
  | cons c rest ih =>
    rw [splitOnChar]
    rw [if_neg (h c (List.mem_cons_self _ _))]
    rw [ih (fun x hx => h x (List.mem_cons_of_mem _ hx))]

theorem toLower_digit {c : Char} (h : c.isDigit = true) :
    Char.toLower c = c := by
  have hd := isDigit_toNat h
  apply charToNat_inj
  rw [toLower_toNat]
  rw [if_neg (by omega)]

/-- An all-digit segment is never UUID shaped (no hyphens). -/
theorem pyIsDigit_not_uuid {c : String} (h : pyIsDigit c = true) :
    isUuidLower (c.data.map Char.toLower) = false := by
  rw [pyIsDigit] at h
  simp only [Bool.and_eq_true, List.all_eq_true, decide_eq_true_eq] at h
  have hmap : ∀ x ∈ c.data.map Char.toLower, ¬x = '-' := by
    intro x hx
    obtain ⟨y, hy, hye⟩ := List.mem_map.mp hx
    rw [← hye, toLower_digit (h.2 y hy)]
    intro he
    have := isDigit_toNat (h.2 y hy)
    have h45 : ('-' : Char).toNat = 45 := by decide
    rw [he] at this
    omega
  rw [isUuidLower, splitOnChar_single hmap]

theorem isUuidLower_ne_nil {l : List Char} (h : isUuidLower l = true) :
    l ≠ [] := by
  intro he
  subst he
  simp [isUuidLower, splitOnChar] at h

/-- First character of a brace-wrapped placeholder. -/
theorem braceWrap_data (name : String) :
    (braceWrap name).data = lbrace :: (name.data ++ [rbrace]) := rfl

theorem braceWrap_ne_empty (name : String) : braceWrap name ≠ "" := by
  intro h
  have := congrArg String.data h
  rw [braceWrap_data] at this
  simp at this

theorem pyIsDigit_braceWrap (name : String) :
    pyIsDigit (braceWrap name) = false := by
  rw [pyIsDigit, braceWrap_data]
  have : lbrace.isDigit = false := by decide
  simp [this]

theorem isHex24_braceWrap (name : String) :
    isHex24 (braceWrap name) = false := by
  rw [isHex24, braceWrap_data]
  have : isHexLower lbrace = false := by decide
  simp [this]

theorem isUuid_braceWrap (name : String) :
    isUuidLower ((braceWrap name).data.map Char.toLower) = false := by
  rw [braceWrap_data]
  cases hu : isUuidLower ((lbrace :: (name.data ++ [rbrace])).map Char.toLower)
  · rfl
  · exfalso
    have hmem := isUuidLower_mem hu (Char.toLower lbrace) (by
      rw [List.map_cons]
      exact List.mem_cons_self _ _)
    have hl : Char.toLower lbrace = lbrace := by decide
    rw [hl] at hmem
    rcases hmem with h | h
    · exact absurd h (by decide)
    · exact absurd h (by decide)

/-- Every pattern segment is brace-wrapped or a stable literal whose
classification guards all fail. -/
theorem extractSegment_shape (segs : List String) (seg : String) :
    (∃ name, extractSegment segs seg = braceWrap name) ∨
    (extractSegment segs seg = seg ∧
     (seg = "" ∨ (pyIsDigit seg = false ∧
       isUuidLower (seg.data.map Char.toLower) = false ∧
       isHex24 seg = false ∧
       ¬(seg.data.any Char.isDigit = true ∧ seg.data.length > 5)))) := by
  rw [extractSegment]
  by_cases h0 : seg = ""
  · right
    rw [if_pos h0]
    exact ⟨rfl, Or.inl h0⟩
  · rw [if_neg h0]
    by_cases h1 : pyIsDigit seg = true
    · left
      rw [if_pos h1]
      exact ⟨"id", rfl⟩
    · rw [if_neg h1]
      by_cases h2 : isUuidLower (seg.data.map Char.toLower) = true
      · left
        rw [if_pos h2]
        exact ⟨"uuid", rfl⟩
      · rw [if_neg h2]
        by_cases h3 : isHex24 seg = true
        · left
          rw [if_pos h3]
          exact ⟨"objectId", rfl⟩
        · rw [if_neg h3]
          by_cases h4 : (seg.data.any Char.isDigit && decide (seg.data.length > 5)) = true
          · left
            rw [if_pos h4]
            exact ⟨generateParamName segs (listIndex segs seg), rfl⟩
          · right
            rw [if_neg h4]
            refine ⟨rfl, Or.inr ⟨by simpa using h1, by simpa using h2,
              by simpa using h3, ?_⟩⟩
            intro hc
            apply h4
            simp only [Bool.and_eq_true, decide_eq_true_eq]
            exact hc

/-- The concretization relation of the claim: `\x7bid\x7d` placeholders
are replaced by purely numeric segments, `\x7buuid\x7d` placeholders by
UUID-shaped segments of any letter case, all other pattern segments are
kept verbatim. -/
def concretizes (p c : String) : Prop :=
  (p = braceWrap "id" ∧ pyIsDigit c = true) ∨
  (p = braceWrap "uuid" ∧ isUuidLower (c.data.map Char.toLower) = true) ∨
  (p ≠ braceWrap "id" ∧ p ≠ braceWrap "uuid" ∧ c = p)

theorem extractSegment_braceWrapped (ctx : List String) (name : String)
    (hguard : ¬((braceWrap name).data.any Char.isDigit = true ∧
      (braceWrap name).data.length > 5)) :
    extractSegment ctx (braceWrap name) = braceWrap name := by
  rw [extractSegment]
  rw [if_neg (braceWrap_ne_empty name)]
  rw [if_neg (by simp [pyIsDigit_braceWrap])]
  rw [if_neg (by simp [isUuid_braceWrap])]
  rw [if_neg (by simp [isHex24_braceWrap])]
  rw [if_neg (by
    intro hc
    simp only [Bool.and_eq_true, decide_eq_true_eq] at hc
    exact hguard hc)]

/-- Classifying a concretized segment in any context reproduces its
pattern segment. -/
theorem extractSegment_concretizes (ctx : List String) {p c : String}
    (hc : concretizes p c)
    (hshape : (∃ name, p = braceWrap name) ∨
      (p = "" ∨ (pyIsDigit p = false ∧
        isUuidLower (p.data.map Char.toLower) = false ∧
        isHex24 p = false ∧
        ¬(p.data.any Char.isDigit = true ∧ p.data.length > 5))))
    (hnd : p ≠ braceWrap "id" → p ≠ braceWrap "uuid" →
      ¬(p.data.any Char.isDigit = true ∧ p.data.length > 5)) :
    extractSegment ctx c = p := by
  rcases hc with ⟨hp, hdig⟩ | ⟨hp, huuid⟩ | ⟨hp1, hp2, hcp⟩
  · subst hp
    rw [extractSegment]
    rw [if_neg (by
      intro he
      rw [pyIsDigit, he] at hdig
      simp at hdig)]
    rw [if_pos hdig]
  · subst hp
    rw [extractSegment]
    rw [if_neg (by
      intro he
      subst he
      simp [isUuidLower, splitOnChar] at huuid)]
    rw [if_neg (by
      cases hd : pyIsDigit c
      · simp
      · rw [pyIsDigit_not_uuid hd] at huuid
        exact Bool.noConfusion huuid)]
    rw [if_pos huuid]
  · rw [hcp]
    rcases hshape with ⟨name, hn⟩ | h0 | hlit
    · subst hn
      exact extractSegment_braceWrapped ctx name (hnd hp1 hp2)
    · rw [h0, extractSegment]
      rw [if_pos rfl]
    · rw [extractSegment]
      by_cases h0 : p = ""
      · rw [if_pos h0, h0]
      · rw [if_neg h0, if_neg (by simp [hlit.1]),
          if_neg (by simp [hlit.2.1]), if_neg (by simp [hlit.2.2.1]),
          if_neg (by
            intro hcc
            simp only [Bool.and_eq_true, decide_eq_true_eq] at hcc
            exact hlit.2.2.2 hcc)]

theorem forall₂_and_left {α β : Type _} {R : β → α → Prop} {S : β → Prop}
    {ps : List β} {cs : List α} (h : List.Forall₂ R ps cs)
    (hs : ∀ p ∈ ps, S p) :
    List.Forall₂ (fun p c => R p c ∧ S p) ps cs := by
  induction h with
  | nil => exact List.Forall₂.nil
  | cons hpc hrest ih =>
    exact List.Forall₂.cons ⟨hpc, hs _ (List.mem_cons_self _ _)⟩
      (ih (fun p hp => hs p (List.mem_cons_of_mem _ hp)))

theorem map_eq_of_forall₂ {α β : Type _} {R : β → α → Prop}
    {ps : List β} {cs : List α} (h : List.Forall₂ R ps cs) (f : α → β)
    (hf : ∀ p c, R p c → f c = p) : cs.map f = ps := by
  induction h with
  | nil => rfl
  | cons hpc hrest ih =>
    rw [List.map_cons, hf _ _ hpc, ih]

/-- C7 counterexample to the literal claim: normalizing "/123/abc456"
produces the pattern "/\x7bid\x7d/\x7b123Id\x7d" (the opaque token gets
the digit-bearing placeholder name "123Id" because its previous segment
is the numeric "123"); substituting the \x7bid\x7d placeholder with the
purely numeric segment "777" and re-normalizing yields
"/\x7bid\x7d/\x7b777Id\x7d", which differs from the original pattern, so
the round trip fails. -/
theorem c7_counterexample :
    (extractPathPattern "/123/abc456").1 = "/\x7bid\x7d/\x7b123Id\x7d" ∧
    (extractPathPattern "/777/\x7b123Id\x7d").1 = "/\x7bid\x7d/\x7b777Id\x7d" ∧
    (extractPathPattern "/777/\x7b123Id\x7d").1 ≠ (extractPathPattern "/123/abc456").1 := by
  refine ⟨by decide, by decide, by decide⟩

/-- C7 (amended): the round trip holds for patterns free of digit-bearing
generated placeholders. If `cs` is obtained from the normalized segments
of `segs` by replacing each \x7bid\x7d placeholder with any purely
numeric segment and each \x7buuid\x7d placeholder with any UUID-shaped
segment of any letter case while keeping every other segment verbatim,
and no pattern segment other than those two placeholders both contains a
digit and has length greater than 5, then normalizing `cs` restores the
original pattern segments exactly. -/
theorem c7_normalize_concretize_round_trip (segs cs : List String)
    (hc : List.Forall₂ concretizes (extractPathSegments segs) cs)
    (hnd : ∀ s ∈ extractPathSegments segs, s ≠ braceWrap "id" →
      s ≠ braceWrap "uuid" →
      ¬(s.data.any Char.isDigit = true ∧ s.data.length > 5)) :
    extractPathSegments cs = extractPathSegments segs := by
  have hS : ∀ p ∈ extractPathSegments segs,
      ((∃ name, p = braceWrap name) ∨
        (p = "" ∨ (pyIsDigit p = false ∧
          isUuidLower (p.data.map Char.toLower) = false ∧
          isHex24 p = false ∧
          ¬(p.data.any Char.isDigit = true ∧ p.data.length > 5)))) ∧
      (p ≠ braceWrap "id" → p ≠ braceWrap "uuid" →
        ¬(p.data.any Char.isDigit = true ∧ p.data.length > 5)) := by
    intro p hp
    refine ⟨?_, hnd p hp⟩
    rw [extractPathSegments] at hp
    obtain ⟨seg, hseg, hps⟩ := List.mem_map.mp hp
    rcases extractSegment_shape segs seg with ⟨name, hn⟩ | ⟨heq, hrest⟩
    · exact Or.inl ⟨name, by rw [← hps, hn]⟩
    · right
      rw [← hps, heq]
      exact hrest
  have h2 := forall₂_and_left hc hS
  rw [extractPathSegments]
  exact map_eq_of_forall₂ h2 (extractSegment cs)
    (fun p c hpc => extractSegment_concretizes cs hpc.1 hpc.2.1 hpc.2.2)

/-- C7 witness: the amended round trip at the concrete path
"/users/123/f47ac10b-58cc-4372-a567-0e02b2c3d479", whose pattern is
"/users/\x7bid\x7d/\x7buuid\x7d"; the \x7bid\x7d placeholder is replaced
by "777" and the \x7buuid\x7d placeholder by an upper-case UUID, and
normalization restores the pattern segments. -/
theorem c7_normalize_concretize_round_trip_witness :
    List.Forall₂ concretizes
      (extractPathSegments (splitSlash "/users/123/f47ac10b-58cc-4372-a567-0e02b2c3d479"))
      ["", "users", "777", "F47AC10B-58CC-4372-A567-0E02B2C3D479"] ∧
    extractPathSegments ["", "users", "777", "F47AC10B-58CC-4372-A567-0E02B2C3D479"] =
      extractPathSegments (splitSlash "/users/123/f47ac10b-58cc-4372-a567-0e02b2c3d479") := by
  have hseg : extractPathSegments (splitSlash "/users/123/f47ac10b-58cc-4372-a567-0e02b2c3d479") =
      ["", "users", braceWrap "id", braceWrap "uuid"] := by decide
  have hfor : List.Forall₂ concretizes
      (extractPathSegments (splitSlash "/users/123/f47ac10b-58cc-4372-a567-0e02b2c3d479"))
      ["", "users", "777", "F47AC10B-58CC-4372-A567-0E02B2C3D479"] := by
    rw [hseg]
    refine List.Forall₂.cons ?_ (List.Forall₂.cons ?_ (List.Forall₂.cons ?_
      (List.Forall₂.cons ?_ List.Forall₂.nil)))
    · exact Or.inr (Or.inr ⟨by decide, by decide, rfl⟩)
    · exact Or.inr (Or.inr ⟨by decide, by decide, rfl⟩)
    · exact Or.inl ⟨rfl, by decide⟩
    · exact Or.inr (Or.inl ⟨rfl, by decide⟩)
  exact ⟨hfor, c7_normalize_concretize_round_trip _ _ hfor (by decide)⟩

/-- A four-call group in which the query parameter "q" appears in
exactly the first two calls (exactly half of the group). -/
def c1Calls : List APICall :=
  let mk := fun (qps : List (String × Json)) =>
    ({ request := { url := "http://api.test/search", method := "GET",
                    headers := [], query_params := qps, body := none },
       response := { status_code := 200, headers := [], body := none,
                     content_type := none } } : APICall)
  [mk [("q", Json.s "a")], mk [("q", Json.s "b")], mk [], mk []]

/-- C1: code bug.  In a group of 4 calls where the query parameter "q"
appears in exactly 2 calls (exactly half), the claim and the spec say it
must NOT be marked required (boundary strictly above 50%), but the code
marks it required: each call containing an already-tracked parameter
increments its presence counter twice (once in the update loop over
`param_stats`, once in the insertion loop over the call's own
parameters), so the counter reaches 3 and 3/4 > 0.5. -/
theorem c1_query_param_required_double_count :
    c1Calls.length = 4 ∧
    c1Calls.countP
      (fun c => (alistFind c.request.query_params "q").isSome) = 2 ∧
    (analyzeQueryParameters c1Calls).map (fun p => (p.name, p.required)) =
      [("q", true)] := by
  refine ⟨rfl, by decide, by decide⟩

/-- A call with a fixed request and a 200 JSON response carrying the
given body. -/
def c3RespCall (body : Option (Option Json)) : APICall :=
  { request := { url := "http://api.test/r", method := "GET", headers := [],
                 query_params := [], body := none },
    response := { status_code := 200, headers := [],
                  body := body, content_type := some "application/json" } }

/-- Two calls in the same (200, application/json) response group whose
payloads are the integer 1 and then the string "x". -/
def c3CallsIS : List APICall :=
  [c3RespCall (some (some (Json.i 1))), c3RespCall (some (some (Json.s "x")))]

/-- The same two calls in the opposite order. -/
def c3CallsSI : List APICall :=
  [c3RespCall (some (some (Json.s "x"))), c3RespCall (some (some (Json.i 1)))]

/-- The successfully parsed response payloads of a response list, in
order (the bodies the `json.loads` try block of `_analyze_responses`
accepts). -/
def parsedBodies (rs : List CapturedResponse) : List Json :=
  rs.filterMap (fun r => match r.body with
    | some (some j) => some j
    | _ => none)

/-- C3 counterexample to the literal claim: for a response group whose
parsed payloads are the integer 1 and the string "x" (in either order),
the reported schema is exactly the first payload's schema (jint resp.
jstr), not their progressive unification; the unification by the merge
of section 4.2 of those two payloads has the type tag "any" in both
orders, which matches neither report. -/
theorem c3_counterexample :
    analyzeResponses c3CallsIS =
      [{ status_code := 200, content_type := "application/json",
         schema := .jint, examples := [Json.i 1, Json.s "x"] }] ∧
    analyzeResponses c3CallsSI =
      [{ status_code := 200, content_type := "application/json",
         schema := .jstr, examples := [Json.s "x", Json.i 1] }] ∧
    (unifySamples [Json.i 1, Json.s "x"]).map Schema.ty = some "any" ∧
    (unifySamples [Json.s "x", Json.i 1]).map Schema.ty = some "any" := by
  have hji : inferSchema (Json.i 1) = .jint := by rw [inferSchema]
  have hjs : inferSchema (Json.s "x") = .jstr := by rw [inferSchema]
  have h1 : extractSchema (Json.i 1) 0 =
      .mk "integer" (some (.i 1)) none false none none none := by
    rw [extractSchema, if_neg (by decide : ¬(0 > 10))]
  have h2 : extractSchema (Json.s "x") 0 =
      .mk "string" (some (.s "x")) none false none none none := by
    rw [extractSchema, if_neg (by decide : ¬(0 > 10))]
    rfl
  refine ⟨?_, ?_, ?_, ?_⟩
  · have h : analyzeResponses c3CallsIS =
        [{ status_code := 200, content_type := "application/json",
           schema := inferSchema (Json.i 1),
           examples := [Json.i 1, Json.s "x"] }] := rfl
    rw [h, hji]
  · have h : analyzeResponses c3CallsSI =
        [{ status_code := 200, content_type := "application/json",
           schema := inferSchema (Json.s "x"),
           examples := [Json.s "x", Json.i 1] }] := rfl
    rw [h, hjs]
  · have h : unifySamples [Json.i 1, Json.s "x"] =
        some (mergeSchemas (extractSchema (Json.i 1) 0)
          (extractSchema (Json.s "x") 0)) := rfl
    rw [h, h1, h2, mergeSchemas_eq]
    rw [if_pos (by decide : ("integer" : String) ≠ "string")]
    rfl
  · have h : unifySamples [Json.s "x", Json.i 1] =
        some (mergeSchemas (extractSchema (Json.s "x") 0)
          (extractSchema (Json.i 1) 0)) := rfl
    rw [h, h1, h2, mergeSchemas_eq]
    rw [if_pos (by decide : ("string" : String) ≠ "integer")]
    rfl

theorem respFold_char (rs : List CapturedResponse)
    (st : Option JSchema × List Json) :
    rs.foldl respFoldStep st =
      ((match st.1 with
        | some s => some s
        | none => (parsedBodies rs).head?.map inferSchema),
       st.2 ++ parsedBodies rs) := by
  induction rs generalizing st with
  | nil =>
    obtain ⟨a, b⟩ := st
    cases a <;> simp [parsedBodies]
  | cons r rest ih =>
    obtain ⟨a, b⟩ := st
    rw [List.foldl_cons, ih]
    rcases hb : r.body with _ | _ | j
    · cases a <;> simp [respFoldStep, parsedBodies, hb]
    · cases a <;> simp [respFoldStep, parsedBodies, hb]
    · cases a <;> simp [respFoldStep, parsedBodies, hb]

/-- C3 (amended): responses are indeed grouped by (status code, content
type) and at most 3 example payloads are retained per group, but the
reported schema of a group is NOT the progressive unification of its
parsed payloads: it is the schema inferred from the FIRST successfully
parsed payload alone (the empty-dict schema when no payload parses);
later payloads only contribute examples. -/
theorem c3_response_schema_first_payload (calls : List APICall) :
    analyzeResponses calls = (responseGroups calls).map (fun kv =>
      { status_code := kv.1.1,
        content_type := kv.1.2,
        schema := ((parsedBodies kv.2).head?.map inferSchema).getD .empty,
        examples := (parsedBodies kv.2).take 3 }) ∧
    ∀ r ∈ analyzeResponses calls, r.examples.length ≤ 3 := by
  constructor
  · rw [analyzeResponses]
    refine List.map_congr_left ?_
    intro kv _
    rw [respFold_char]
    rfl
  · intro r hr
    rw [analyzeResponses] at hr
    obtain ⟨kv, _, hre⟩ := List.mem_map.mp hr
    rw [← hre]
    simp only [List.length_take]
    omega

/-- C3 witness: the amended characterization instantiated at the
two-call group whose payloads are the integer 1 and the string "x". -/
theorem c3_response_schema_first_payload_witness :
    analyzeResponses c3CallsIS = (responseGroups c3CallsIS).map (fun kv =>
      { status_code := kv.1.1,
        content_type := kv.1.2,
        schema := ((parsedBodies kv.2).head?.map inferSchema).getD .empty,
        examples := (parsedBodies kv.2).take 3 }) ∧
    ∀ r ∈ analyzeResponses c3CallsIS, r.examples.length ≤ 3 :=
  c3_response_schema_first_payload c3CallsIS

theorem alistAppendK_keys [DecidableEq κ] (l : List (κ × List α)) (k : κ)
    (v : α) :
    (alistAppendK l k v).map (·.1) =
      if l.any (fun kv => kv.1 = k) then l.map (·.1)
      else l.map (·.1) ++ [k] := by
  induction l with
  | nil => simp [alistAppendK]
  | cons kv rest ih =>
    obtain ⟨k0, vs⟩ := kv
    by_cases hk : k0 = k
    · simp [alistAppendK, hk]
    · simp only [alistAppendK, if_neg hk, List.map_cons, List.any_cons, ih]
      rw [decide_eq_false hk]
      simp only [Bool.false_or]
      split <;> simp

theorem alistAppendK_keys_nodup [DecidableEq κ] (l : List (κ × List α))
    (k : κ) (v : α) (h : (l.map (·.1)).Nodup) :
    ((alistAppendK l k v).map (·.1)).Nodup := by
  rw [alistAppendK_keys]
  split
  · exact h
  · rename_i hany
    refine List.Nodup.append h (List.nodup_singleton k) ?_
    intro x hx hxk
    rw [List.mem_singleton] at hxk
    subst hxk
    obtain ⟨kv, hkv, hx1⟩ := List.mem_map.mp hx
    exact hany (List.any_eq_true.mpr ⟨kv, hkv, by simp [hx1]⟩)

theorem mem_keys_alistAppendK [DecidableEq κ] {l : List (κ × List α)}
    {k x : κ} {v : α} (h : x ∈ (alistAppendK l k v).map (·.1)) :
    x ∈ l.map (·.1) ∨ x = k := by
  rw [alistAppendK_keys] at h
  split at h
  · exact Or.inl h
  · rcases List.mem_append.mp h with h1 | h2
    · exact Or.inl h1
    · exact Or.inr (List.mem_singleton.mp h2)

theorem groupByEndpoint_keys_nodup (calls : List APICall) :
    ((groupByEndpoint calls).map (·.1)).Nodup := by
  rw [groupByEndpoint]
  suffices h : ∀ acc : List (String × List APICall), (acc.map (·.1)).Nodup →
      ((calls.foldl (fun gs c => alistAppendK gs (mkEndpointKey c) c)
        acc).map (·.1)).Nodup by
    exact h [] (by simp)
  induction calls with
  | nil => intro acc ha; simpa using ha
  | cons c cs ih =>
    intro acc ha
    rw [List.foldl_cons]
    exact ih _ (alistAppendK_keys_nodup _ _ _ ha)

theorem mem_groupByEndpoint_keys {calls : List APICall} {k : String}
    (hk : k ∈ (groupByEndpoint calls).map (·.1)) :
    ∃ c ∈ calls, k = mkEndpointKey c := by
  rw [groupByEndpoint] at hk
  suffices h : ∀ acc : List (String × List APICall),
      k ∈ ((calls.foldl (fun gs c => alistAppendK gs (mkEndpointKey c) c)
        acc).map (·.1)) →
      k ∈ acc.map (·.1) ∨ ∃ c ∈ calls, k = mkEndpointKey c by
    rcases h [] hk with h1 | h1
    · simp at h1
    · exact h1
  clear hk
  induction calls with
  | nil => intro acc ha; exact Or.inl ha
  | cons c cs ih =>
    intro acc ha
    rw [List.foldl_cons] at ha
    rcases ih _ ha with h1 | ⟨c0, hc0, he⟩
    · rcases mem_keys_alistAppendK h1 with h2 | h2
      · exact Or.inl h2
      · exact Or.inr ⟨c, List.mem_cons_self c cs, h2⟩
    · exact Or.inr ⟨c0, List.mem_cons_of_mem _ hc0, he⟩

theorem data_append_space (a b : String) :
    (a ++ " " ++ b).data = a.data ++ ' ' :: b.data := by
  simp [String.data_append]

theorem stringDataEq {s t : String} (h : s.data = t.data) : s = t :=
  String.ext h

theorem mkEndpointKey_space (c : APICall) : ' ' ∈ (mkEndpointKey c).data := by
  rw [mkEndpointKey, data_append_space]
  simp

theorem spaceSplit_list (l : List Char) (h : ' ' ∈ l) :
    l = l.takeWhile (· ≠ ' ') ++ ' ' :: (l.dropWhile (· ≠ ' ')).drop 1 := by
  have hne : l.dropWhile (fun c => decide (c ≠ ' ')) ≠ [] := by
    intro h0
    rw [List.dropWhile_eq_nil_iff] at h0
    have := h0 ' ' h
    simp at this
  have hsp : (l.dropWhile (fun c => decide (c ≠ ' '))).head hne = ' ' := by
    have hh := List.head_dropWhile_not (fun c => decide (c ≠ ' ')) l hne
    simpa using hh
  have hd : l.dropWhile (fun c => decide (c ≠ ' ')) =
      ' ' :: (l.dropWhile (fun c => decide (c ≠ ' '))).drop 1 := by
    conv_lhs => rw [← List.head_cons_tail _ hne]
    rw [hsp, List.drop_one]
  conv_lhs => rw [← List.takeWhile_append_dropWhile
    (fun c => decide (c ≠ ' ')) l, hd]

theorem splitFirstSpace_reconstruct (s : String) (h : ' ' ∈ s.data) :
    s.data = (splitFirstSpace s).1.data ++
      ' ' :: (splitFirstSpace s).2.data ∧
    ' ' ∉ (splitFirstSpace s).1.data := by
  rw [splitFirstSpace]
  constructor
  · exact spaceSplit_list s.data h
  · intro hm
    have := List.mem_takeWhile_imp hm
    simp at this

theorem takeWhile_all_append (p : Char → Bool) (l1 l2 : List Char)
    (h1 : ∀ x ∈ l1, p x = true) (c : Char) (hc : p c = false) :
    (l1 ++ c :: l2).takeWhile p = l1 ∧
    (l1 ++ c :: l2).dropWhile p = c :: l2 := by
  induction l1 with
  | nil =>
    constructor
    · rw [List.nil_append, List.takeWhile_cons, hc]
      simp
    · rw [List.nil_append, List.dropWhile_cons, hc]
      simp
  | cons a t ih =>
    have ha : p a = true := h1 a (List.mem_cons_self _ _)
    have ht := ih (fun x hx => h1 x (List.mem_cons_of_mem _ hx))
    constructor
    · rw [List.cons_append, List.takeWhile_cons, ha]
      simp only [if_true]
      rw [ht.1]
    · rw [List.cons_append, List.dropWhile_cons, ha]
      simp only [if_true]
      exact ht.2

theorem splitFirstSpace_append (a b : String) (ha : ' ' ∉ a.data) :
    splitFirstSpace (a ++ " " ++ b) = (a, b) := by
  rw [splitFirstSpace, data_append_space]
  obtain ⟨h1, h2⟩ := takeWhile_all_append (fun c => decide (c ≠ ' '))
    a.data b.data
    (fun x hx => decide_eq_true (fun he => ha (he ▸ hx))) ' ' (by simp)
  rw [h1, h2]
  simp only [List.drop_succ_cons, List.drop_zero]

theorem ofString_eq_value (s : String) (m : HTTPMethod)
    (h : HTTPMethod.ofString s = some m) : s = m.value := by
  rw [HTTPMethod.ofString.eq_def] at h
  split at h <;> simp_all [HTTPMethod.value] <;> subst h <;> rfl

theorem value_no_space (m : HTTPMethod) : ' ' ∉ m.value.data := by
  cases m <;> decide

theorem mapM_ok_forall₂ {α β : Type} (f : α → Except String β)
    (l : List α) (res : List β) (h : l.mapM f = .ok res) :
    List.Forall₂ (fun a b => f a = .ok b) l res := by
  induction l generalizing res with
  | nil =>
    rw [List.mapM_nil] at h
    injection h with he
    subst he
    exact List.Forall₂.nil
  | cons a t ih =>
    rw [List.mapM_cons] at h
    cases hfa : f a with
    | error e => rw [hfa] at h; simp [Bind.bind, Except.bind] at h
    | ok b =>
      rw [hfa] at h
      cases hft : t.mapM f with
      | error e => rw [hft] at h; simp [Bind.bind, Except.bind] at h
      | ok bs =>
        rw [hft] at h
        simp only [Bind.bind, Except.bind, pure, Except.pure] at h
        injection h with he
        subst he
        exact List.Forall₂.cons hfa (ih bs hft)

theorem mapM_ok_of_forall {α β : Type} (f : α → Except String β)
    (l : List α) (hl : ∀ a ∈ l, ∃ b, f a = .ok b) :
    ∃ res, l.mapM f = .ok res := by
  induction l with
  | nil => exact ⟨[], by rw [List.mapM_nil]; rfl⟩
  | cons a t ih =>
    obtain ⟨b, hb⟩ := hl a (List.mem_cons_self a t)
    obtain ⟨bs, hbs⟩ := ih (fun x hx => hl x (List.mem_cons_of_mem _ hx))
    exact ⟨b :: bs, by rw [List.mapM_cons, hb, hbs]; rfl⟩

theorem forall₂_imp_mem {α β : Type _} {R S : α → β → Prop}
    {l1 : List α} {l2 : List β} (h : List.Forall₂ R l1 l2)
    (himp : ∀ a ∈ l1, ∀ b, R a b → S a b) : List.Forall₂ S l1 l2 := by
  induction h with
  | nil => exact List.Forall₂.nil
  | cons hab hrest ih =>
    exact List.Forall₂.cons (himp _ (List.mem_cons_self _ _) _ hab)
      (ih (fun a ha b hr => himp a (List.mem_cons_of_mem _ ha) b hr))

theorem forall₂_map_eq {α β γ : Type _} {f : α → γ} {g : β → γ}
    {l1 : List α} {l2 : List β}
    (h : List.Forall₂ (fun a b => f a = g b) l1 l2) :
    l1.map f = l2.map g := by
  induction h with
  | nil => rfl
  | cons hab _ ih => simp only [List.map_cons, hab, ih]

theorem analyzeEndpoint_key (key : String) (g : List APICall) (e : Endpoint)
    (hsp : ' ' ∈ key.data) (hok : analyzeEndpoint key g = .ok e) :
    key = e.method.value ++ " " ++ e.path := by
  rw [analyzeEndpoint] at hok
  cases hof : HTTPMethod.ofString (splitFirstSpace key).1 with
  | none => rw [hof] at hok; cases hok
  | some m =>
    rw [hof] at hok
    injection hok with he
    have hm : e.method = m := by rw [← he]
    have hp : e.path = (splitFirstSpace key).2 := by rw [← he]
    have hv : (splitFirstSpace key).1 = m.value := ofString_eq_value _ _ hof
    obtain ⟨hrec, _⟩ := splitFirstSpace_reconstruct key hsp
    apply stringDataEq
    rw [data_append_space, hrec, hm, hp, hv]

/-- C8: every APISpec returned by analyze_calls satisfies the uniqueness
invariant: the endpoint keys built by the grouping pass are pairwise
distinct, each group produces exactly one Endpoint record (the endpoint
list and the group list have the same length), and no two Endpoint
records share the same (method, path pattern) pair. -/
theorem c8_endpoint_uniqueness (calls : List APICall) (spec : APISpec)
    (h : analyzeCalls calls = .ok spec) :
    ((groupByEndpoint calls).map (·.1)).Nodup ∧
    spec.endpoints.length = (groupByEndpoint calls).length ∧
    (spec.endpoints.map (fun e => (e.method, e.path))).Nodup := by
  cases calls with
  | nil => simp [analyzeCalls] at h
  | cons a t =>
    have h' : Bind.bind ((groupByEndpoint (a :: t)).mapM
        (fun kv => analyzeEndpoint kv.1 kv.2))
        (fun endpoints => (Except.ok
          { base_url := determineBaseUrl (a :: t),
            title := "Generated API",
            endpoints := endpoints,
            auth_patterns := detectAuthPatterns (a :: t),
            rate_limits := detectRateLimits (a :: t) } :
          Except String APISpec)) = .ok spec := h
    cases hm : (groupByEndpoint (a :: t)).mapM
        (fun kv => analyzeEndpoint kv.1 kv.2) with
    | error e =>
      rw [hm] at h'
      simp [Bind.bind, Except.bind] at h'
    | ok eps =>
      rw [hm] at h'
      simp only [Bind.bind, Except.bind] at h'
      injection h' with he
      have heps : spec.endpoints = eps := by rw [← he]
      have hf := mapM_ok_forall₂ _ _ _ hm
      have hkeys := groupByEndpoint_keys_nodup (a :: t)
      have hf2 : List.Forall₂ (fun kv (e : Endpoint) =>
          kv.1 = e.method.value ++ " " ++ e.path)
          (groupByEndpoint (a :: t)) eps := by
        refine forall₂_imp_mem hf ?_
        intro kv hkv e hok
        obtain ⟨c, _, hkey⟩ := mem_groupByEndpoint_keys
          (List.mem_map_of_mem (·.1) hkv)
        have hsp : ' ' ∈ kv.1.data := by
          rw [hkey]
          exact mkEndpointKey_space c
        exact analyzeEndpoint_key kv.1 kv.2 e hsp hok
      have hmap : (groupByEndpoint (a :: t)).map (·.1) =
          eps.map (fun e => e.method.value ++ " " ++ e.path) :=
        forall₂_map_eq hf2
      refine ⟨hkeys, ?_, ?_⟩
      · rw [heps]
        exact (List.Forall₂.length_eq hf).symm
      · rw [heps]
        have hnd : (eps.map
            (fun e => e.method.value ++ " " ++ e.path)).Nodup := by
          rw [← hmap]
          exact hkeys
        have hcomp : eps.map (fun e => e.method.value ++ " " ++ e.path) =
            (eps.map (fun e => (e.method, e.path))).map
              (fun mp => mp.1.value ++ " " ++ mp.2) := by
          rw [List.map_map]
          rfl
        rw [hcomp] at hnd
        exact List.Nodup.of_map _ hnd

/-- A GET call to http://api.test/users. -/
def c8c1 : APICall :=
  { request := { url := "http://api.test/users", method := "GET",
                 headers := [], query_params := [], body := none },
    response := { status_code := 200, headers := [], body := none,
                  content_type := none } }

/-- A POST call to the same URL. -/
def c8c2 : APICall :=
  { request := { url := "http://api.test/users", method := "POST",
                 headers := [], query_params := [], body := none },
    response := { status_code := 201, headers := [], body := none,
                  content_type := none } }

/-- The two-call input of the C8 witness. -/
def c8Calls : List APICall := [c8c1, c8c2]

/-- The APISpec that analyze_calls produces on `c8Calls`. -/
def c8Spec : APISpec :=
  { base_url := determineBaseUrl c8Calls,
    title := "Generated API",
    endpoints :=
      [{ path := "/users", method := .GET,
         summary := some (generateSummary .GET "/users"),
         parameters := analyzePathParameters "/users",
         query_params := analyzeQueryParameters [c8c1],
         headers := analyzeHeaders [c8c1],
         request_body := analyzeRequestBody [c8c1],
         responses := analyzeResponses [c8c1],
         auth_required := detectAuthRequirement [c8c1] },
       { path := "/users", method := .POST,
         summary := some (generateSummary .POST "/users"),
         parameters := analyzePathParameters "/users",
         query_params := analyzeQueryParameters [c8c2],
         headers := analyzeHeaders [c8c2],
         request_body := analyzeRequestBody [c8c2],
         responses := analyzeResponses [c8c2],
         auth_required := detectAuthRequirement [c8c2] }],
    auth_patterns := detectAuthPatterns c8Calls,
    rate_limits := detectRateLimits c8Calls }

/-- C8 witness: on a concrete two-call input covering two methods of one
URL, analyze_calls succeeds and the uniqueness invariant holds. -/
theorem c8_endpoint_uniqueness_witness :
    analyzeCalls c8Calls = .ok c8Spec ∧
    (((groupByEndpoint c8Calls).map (·.1)).Nodup ∧
     c8Spec.endpoints.length = (groupByEndpoint c8Calls).length ∧
     (c8Spec.endpoints.map (fun e => (e.method, e.path))).Nodup) := by
  have hnp : normalizePath "/users" = "/users" := by
    apply stringDataEq
    show subLongTokens (subUuidIds (subNumericIds ("/users" : String).data)) =
      ("/users" : String).data
    have hd : ("/users" : String).data = ['/', 'u', 's', 'e', 'r', 's'] := rfl
    rw [hd]
    have h1 : subNumericIds ['/', 'u', 's', 'e', 'r', 's'] =
        ['/', 'u', 's', 'e', 'r', 's'] := by
      simp +decide [subNumericIds]
    have h2 : subUuidIds ['/', 'u', 's', 'e', 'r', 's'] =
        ['/', 'u', 's', 'e', 'r', 's'] := by
      simp +decide [subUuidIds]
    have h3 : subLongTokens ['/', 'u', 's', 'e', 'r', 's'] =
        ['/', 'u', 's', 'e', 'r', 's'] := by
      simp +decide [subLongTokens]
    rw [h1, h2, h3]
  have hup : (urlparseParts "http://api.test/users").2.2 = "/users" := by decide
  have hk1 : mkEndpointKey c8c1 = "GET /users" := by
    show ("GET" : String) ++ " " ++
      normalizePath (urlparseParts "http://api.test/users").2.2 = "GET /users"
    rw [hup, hnp]
    rfl
  have hk2 : mkEndpointKey c8c2 = "POST /users" := by
    show ("POST" : String) ++ " " ++
      normalizePath (urlparseParts "http://api.test/users").2.2 = "POST /users"
    rw [hup, hnp]
    rfl
  have hg : groupByEndpoint c8Calls =
      [("GET /users", [c8c1]), ("POST /users", [c8c2])] := by
    show alistAppendK (alistAppendK [] (mkEndpointKey c8c1) c8c1)
      (mkEndpointKey c8c2) c8c2 =
      [("GET /users", [c8c1]), ("POST /users", [c8c2])]
    rw [hk1, hk2]
    rfl
  have hspec : analyzeCalls c8Calls = .ok c8Spec := by
    show Bind.bind ((groupByEndpoint c8Calls).mapM
        (fun kv => analyzeEndpoint kv.1 kv.2))
      (fun endpoints => (Except.ok
        { base_url := determineBaseUrl c8Calls,
          title := "Generated API",
          endpoints := endpoints,
          auth_patterns := detectAuthPatterns c8Calls,
          rate_limits := detectRateLimits c8Calls } :
        Except String APISpec)) = .ok c8Spec
    rw [hg]
    rfl
  refine ⟨hspec, ?_⟩
  exact c8_endpoint_uniqueness c8Calls c8Spec hspec

/-- C9: analyzing an empty call list yields the explicit
"No API calls to analyze" error and never an (empty) APISpec; for every
nonempty call list whose methods are all accepted by the HTTPMethod
constructor, analysis returns an APISpec and no error. -/
theorem c9_empty_input_error :
    analyzeCalls [] = .error "No API calls to analyze" ∧
    ∀ calls : List APICall, calls ≠ [] →
      (∀ c ∈ calls, (HTTPMethod.ofString c.request.method).isSome) →
      ∃ spec, analyzeCalls calls = .ok spec := by
  constructor
  · rfl
  · intro calls hne hm
    cases calls with
    | nil => exact absurd rfl hne
    | cons a t =>
      have hall : ∀ kv ∈ groupByEndpoint (a :: t),
          ∃ e, analyzeEndpoint kv.1 kv.2 = .ok e := by
        intro kv hkv
        obtain ⟨c, hc, hkey⟩ := mem_groupByEndpoint_keys
          (List.mem_map_of_mem (·.1) hkv)
        obtain ⟨m, hms⟩ := Option.isSome_iff_exists.mp (hm c hc)
        have hval : c.request.method = m.value := ofString_eq_value _ _ hms
        have hsp : ' ' ∉ c.request.method.data := by
          rw [hval]
          exact value_no_space m
        have hsplit : splitFirstSpace kv.1 =
            (c.request.method,
             normalizePath (urlparseParts c.request.url).2.2) := by
          rw [hkey, mkEndpointKey]
          exact splitFirstSpace_append _ _ hsp
        have h0 : analyzeEndpoint kv.1 kv.2 =
            match HTTPMethod.ofString (splitFirstSpace kv.1).1 with
            | none => .error ((splitFirstSpace kv.1).1 ++
                " is not a valid HTTPMethod")
            | some method => .ok
                { path := (splitFirstSpace kv.1).2,
                  method := method,
                  summary := some (generateSummary method
                    (splitFirstSpace kv.1).2),
                  parameters := analyzePathParameters (splitFirstSpace kv.1).2,
                  query_params := analyzeQueryParameters kv.2,
                  headers := analyzeHeaders kv.2,
                  request_body := analyzeRequestBody kv.2,
                  responses := analyzeResponses kv.2,
                  auth_required := detectAuthRequirement kv.2 } := rfl
        have h1 : HTTPMethod.ofString
            ((c.request.method,
              normalizePath (urlparseParts c.request.url).2.2)).1 =
            some m := hms
        refine ⟨{ path := normalizePath (urlparseParts c.request.url).2.2,
                  method := m,
                  summary := some (generateSummary m
                    (normalizePath (urlparseParts c.request.url).2.2)),
                  parameters := analyzePathParameters
                    (normalizePath (urlparseParts c.request.url).2.2),
                  query_params := analyzeQueryParameters kv.2,
                  headers := analyzeHeaders kv.2,
                  request_body := analyzeRequestBody kv.2,
                  responses := analyzeResponses kv.2,
                  auth_required := detectAuthRequirement kv.2 }, ?_⟩
        rw [h0, hsplit, h1]
      obtain ⟨eps, heps⟩ := mapM_ok_of_forall
        (fun kv => analyzeEndpoint kv.1 kv.2) (groupByEndpoint (a :: t))
        hall
      refine ⟨{ base_url := determineBaseUrl (a :: t),
                title := "Generated API",
                endpoints := eps,
                auth_patterns := detectAuthPatterns (a :: t),
                rate_limits := detectRateLimits (a :: t) }, ?_⟩
      show Bind.bind ((groupByEndpoint (a :: t)).mapM
          (fun kv => analyzeEndpoint kv.1 kv.2))
        (fun endpoints => (Except.ok
          { base_url := determineBaseUrl (a :: t),
            title := "Generated API",
            endpoints := endpoints,
            auth_patterns := detectAuthPatterns (a :: t),
            rate_limits := detectRateLimits (a :: t) } :
          Except String APISpec)) = Except.ok
          { base_url := determineBaseUrl (a :: t),
            title := "Generated API",
            endpoints := eps,
            auth_patterns := detectAuthPatterns (a :: t),
            rate_limits := detectRateLimits (a :: t) }
      rw [heps]
      rfl

/-- A single GET call used by the C9 witness. -/
def c9Call : APICall :=
  { request := { url := "http://api.test/items", method := "GET",
                 headers := [], query_params := [], body := none },
    response := { status_code := 200, headers := [], body := none,
                  content_type := none } }

/-- C9 witness: the empty input errors and the one-call GET input
succeeds. -/
theorem c9_empty_input_error_witness :
    analyzeCalls [] = .error "No API calls to analyze" ∧
    ∃ spec, analyzeCalls [c9Call] = .ok spec :=
  ⟨c9_empty_input_error.1,
   c9_empty_input_error.2 [c9Call] (by simp)
     (by
       intro c hc
       rw [List.mem_singleton] at hc
       subst hc
       rfl)⟩
